import Mathlib

/-!
# Stork price-feed monitor: account decoding, feed table and console rendering

A shallow embedding of `price_feed.go` and `web_interface.go`.

* Byte buffers (`[]byte`, and Go strings, which are byte sequences) are lists of `Byte`.
* The Borsh decoder of `github.com/gagliardetto/binary` is a cursor over a byte buffer; the
  three reads the program performs (`[32]uint8`, `uint64`, `Int128`) are embedded from the
  Borsh wire format the library implements.  Go writes decoded fields through the receiver
  pointer, so every decode function here takes the old object and returns the new one together
  with the error value.
* `map[string]*PriceFeed` is a function from names to optional entries; every key owns its own
  cell, as in `main`, where each entry is allocated separately.
* The RPC client and the wall clock are oracles passed in as arguments.
-/

namespace Stork

/-! ## Bytes and integer codecs -/

/-- One octet. -/
abbrev Byte := Fin 256

/-- The `w` low-order octets of `n`, least significant first
(`binary.LittleEndian.PutUint64` for `w = 8`). -/
def encodeLE : Nat → Nat → List Byte
  | 0, _ => []
  | w + 1, n => ⟨n % 256, Nat.mod_lt _ (by decide)⟩ :: encodeLE w (n / 256)

/-- Value of a little-endian octet string (`binary.LittleEndian.Uint64` on 8 octets). -/
def uintLE : List Byte → Nat
  | [] => 0
  | b :: bs => b.val + 256 * uintLE bs

/-- `big.Int.SetBytes`: value of a big-endian octet string. -/
def setBytes (bs : List Byte) : Nat :=
  bs.foldl (fun acc b => acc * 256 + b.val) 0

/-! ## The Borsh decoder -/

/-- Decoder errors: a read asked for `required` octets with only `remaining` left. -/
inductive DecodeError where
  | short (required remaining : Nat)
  deriving DecidableEq

/-- `bin.Decoder`: the buffer and the read position. -/
structure Decoder where
  data : List Byte
  pos : Nat
  deriving DecidableEq

/-- `bin.NewBorshDecoder`. -/
def NewBorshDecoder (data : List Byte) : Decoder := ⟨data, 0⟩

/-- `Decoder.Remaining`. -/
def Decoder.Remaining (dec : Decoder) : Nat := dec.data.length - dec.pos

/-- `Decoder.ReadNBytes`: the next `n` octets, or an error when fewer remain. -/
def Decoder.ReadNBytes (dec : Decoder) (n : Nat) : Except DecodeError (List Byte × Decoder) :=
  if dec.Remaining < n then .error (.short n dec.Remaining)
  else .ok ((dec.data.drop dec.pos).take n, { dec with pos := dec.pos + n })

/-- `Decoder.ReadUint64` with little-endian order. -/
def Decoder.ReadUint64 (dec : Decoder) : Except DecodeError (Nat × Decoder) :=
  if dec.Remaining < 8 then .error (.short 8 dec.Remaining)
  else .ok (uintLE ((dec.data.drop dec.pos).take 8), { dec with pos := dec.pos + 8 })

/-- `bin.Int128`: two 64-bit words. -/
structure Int128 where
  Lo : Nat
  Hi : Nat
  deriving DecidableEq

/-- `Decoder.ReadInt128` with little-endian order: the low word comes first. -/
def Decoder.ReadInt128 (dec : Decoder) : Except DecodeError (Int128 × Decoder) :=
  if dec.Remaining < 16 then .error (.short 16 dec.Remaining)
  else
    let data := (dec.data.drop dec.pos).take 16
    .ok ({ Lo := uintLE (data.take 8), Hi := uintLE (data.drop 8) },
         { dec with pos := dec.pos + 16 })

/-- The library helper `twosComplement`: flip every octet, read the result as a big-endian
natural and add one.  (The library returns the octets of that natural and the caller reads
them back with `SetBytes`, which is the identity on naturals.) -/
def twosComplement (v : List Byte) : Nat :=
  setBytes (v.map (fun b => b ^^^ 0xff)) + 1

/-- `Int128.BigInt`: lay the two words out big-endian; when the top bit is set the value is
the negated two's complement. -/
def Int128.BigInt (i : Int128) : Int :=
  let buf := (encodeLE 8 i.Lo ++ encodeLE 8 i.Hi).reverse
  if buf.headD 0 &&& 0x80 = 0x80 then -((twosComplement buf : Nat) : Int)
  else ((setBytes buf : Nat) : Int)

/-! ## Account layout -/

/-- `TemporalNumericValue`. -/
structure TemporalNumericValue where
  TimestampNs : Nat
  QuantizedValue : Int128
  deriving DecidableEq

/-- `TemporalNumericValueFeedAccount`. -/
structure TemporalNumericValueFeedAccount where
  Id : List Byte
  LatestValue : TemporalNumericValue
  deriving DecidableEq

/-- The Go zero value `&TemporalNumericValueFeedAccount{}`. -/
def TemporalNumericValueFeedAccount.zero : TemporalNumericValueFeedAccount :=
  { Id := List.replicate 32 0, LatestValue := { TimestampNs := 0, QuantizedValue := ⟨0, 0⟩ } }

/-- Result of a decode through a pointer: the object as left behind, the decoder, the error. -/
structure DecodeResult (α : Type) where
  obj : α
  dec : Decoder
  err : Option DecodeError

/-- `decoder.Decode(&obj.Id)` for `[32]uint8`. -/
def Decoder.DecodeId (dec : Decoder) (cur : List Byte) : DecodeResult (List Byte) :=
  match dec.ReadNBytes 32 with
  | .error e => ⟨cur, dec, some e⟩
  | .ok (bs, d) => ⟨bs, d, none⟩

/-- `decoder.Decode(&obj.LatestValue)`: the struct fields in declaration order. -/
def Decoder.DecodeLatestValue (dec : Decoder) (cur : TemporalNumericValue) :
    DecodeResult TemporalNumericValue :=
  match dec.ReadUint64 with
  | .error e => ⟨cur, dec, some e⟩
  | .ok (ts, d1) =>
    let cur1 := { cur with TimestampNs := ts }
    match d1.ReadInt128 with
    | .error e => ⟨cur1, d1, some e⟩
    | .ok (q, d2) => ⟨{ cur1 with QuantizedValue := q }, d2, none⟩

/-- `(*TemporalNumericValueFeedAccount).UnmarshalWithDecoder`. -/
def TemporalNumericValueFeedAccount.UnmarshalWithDecoder
    (obj : TemporalNumericValueFeedAccount) (decoder : Decoder) :
    DecodeResult TemporalNumericValueFeedAccount :=
  -- Deserialize Id
  let r1 := decoder.DecodeId obj.Id
  let obj1 := { obj with Id := r1.obj }
  match r1.err with
  | some e => ⟨obj1, r1.dec, some e⟩
  | none =>
    -- Deserialize LatestValue
    let r2 := r1.dec.DecodeLatestValue obj1.LatestValue
    let obj2 := { obj1 with LatestValue := r2.obj }
    match r2.err with
    | some e => ⟨obj2, r2.dec, some e⟩
    | none => ⟨obj2, r2.dec, none⟩

/-- The account buffer the chain program writes: id, timestamp, value, then anything. -/
def encodeAccount (id : List Byte) (t : Nat) (v : Int) (trailing : List Byte) : List Byte :=
  id ++ encodeLE 8 t ++ encodeLE 16 (v % 2 ^ 128).toNat ++ trailing

/-! ## The feed table and the sampling tick -/

/-- `solana.PublicKey`. -/
abbrev PublicKey := List Byte

/-- `time.Time`, as an instant in nanoseconds since the Unix epoch. -/
abbrev Time := Int

/-- The zero `time.Time` (January 1, year 1, 00:00:00 UTC). -/
def Time.zero : Time := -62135596800000000000

/-- `PriceFeed`; a nil `*big.Int` is `none`. -/
structure PriceFeed where
  Name : String
  Price : Option Int
  Timestamp : Nat
  LastUpdate : Time
  deriving DecidableEq

/-- `map[string]*PriceFeed`: an absent key reads as the nil pointer. -/
abbrev PriceFeeds := String → Option PriceFeed

/-- What `client.GetAccountInfo` hands back: an error, a nil `accountInfo`, or an account whose
`Value.Data.GetBinary()` is `data`. -/
inductive AccountInfoResult where
  | failed (msg : String)
  | nilInfo
  | info (data : List Byte)
  deriving DecidableEq

/-- The RPC endpoint as seen by one tick: the answer to the one call made for an asset. -/
abbrev Client := String → PublicKey → AccountInfoResult

/-- One iteration of the loop in `updatePriceFeeds`.  The result is `none` when the iteration
dereferences a nil `priceFeed`. -/
def updateOne (client : Client) (now : String → Time) (priceFeeds : PriceFeeds)
    (name : String) (feedAccount : PublicKey) : Option PriceFeeds :=
  match client name feedAccount with
  | .failed _ => some priceFeeds
  | .nilInfo => some priceFeeds
  | .info data =>
    if data.length = 0 then some priceFeeds
    else
      let decoder := NewBorshDecoder data
      let r := TemporalNumericValueFeedAccount.zero.UnmarshalWithDecoder decoder
      match r.err with
      | some _ => some priceFeeds
      | none =>
        match priceFeeds name with
        | none => none
        | some priceFeed =>
          some (Function.update priceFeeds name (some
            { priceFeed with
              Price := some r.obj.LatestValue.QuantizedValue.BigInt
              Timestamp := r.obj.LatestValue.TimestampNs
              LastUpdate := now name }))

/-- `updatePriceFeeds`; `feedAccounts` lists the map in the order `range` visits it. -/
def updatePriceFeeds (client : Client) (now : String → Time) :
    List (String × PublicKey) → PriceFeeds → Option PriceFeeds
  | [], priceFeeds => some priceFeeds
  | (name, feedAccount) :: rest, priceFeeds =>
    match updateOne client now priceFeeds name feedAccount with
    | none => none
    | some priceFeeds1 => updatePriceFeeds client now rest priceFeeds1

/-- The account a fetch result decodes to, when the loop body reaches its write step. -/
def decodedAccount : AccountInfoResult → Option TemporalNumericValueFeedAccount
  | .failed _ => none
  | .nilInfo => none
  | .info data =>
    if data.length = 0 then none
    else
      let r := TemporalNumericValueFeedAccount.zero.UnmarshalWithDecoder (NewBorshDecoder data)
      match r.err with
      | some _ => none
      | none => some r.obj

/-- The write step of the loop body (lines 164-167) applied to one entry. -/
def writeEntry (account : TemporalNumericValueFeedAccount) (t : Time) (priceFeed : PriceFeed) :
    PriceFeed :=
  { priceFeed with
    Price := some account.LatestValue.QuantizedValue.BigInt
    Timestamp := account.LatestValue.TimestampNs
    LastUpdate := t }

/-- The effect of one tick on the entry of an asset whose fetch returned `res`. -/
def refreshed (res : AccountInfoResult) (t : Time) (priceFeed : PriceFeed) : PriceFeed :=
  match decodedAccount res with
  | none => priceFeed
  | some account => writeEntry account t priceFeed

/-! ## Asset identifiers and address derivation -/

/-- A Go `string`: a sequence of bytes. -/
abbrev GoString := List Byte

/-- Errors of `encoding/hex`: `InvalidByteError` and `ErrLength`. -/
inductive HexError where
  | invalidByte (b : Byte)
  | errLength
  deriving DecidableEq

/-- The lookup `reverseHexTable[c]` of `encoding/hex`; the table entries `0xff` are `none`. -/
def fromHexChar (c : Byte) : Option Nat :=
  if 0x30 ≤ c.val ∧ c.val ≤ 0x39 then some (c.val - 0x30)
  else if 0x61 ≤ c.val ∧ c.val ≤ 0x66 then some (c.val - 0x61 + 10)
  else if 0x41 ≤ c.val ∧ c.val ≤ 0x46 then some (c.val - 0x41 + 10)
  else none

/-- `hex.DecodeString`: pairs of digits become bytes until a bad byte or a dangling digit is
met; the bytes decoded so far are returned next to the error. -/
def hexDecode : GoString → List Byte × Option HexError
  | [] => ([], none)
  | [p] =>
    match fromHexChar p with
    | none => ([], some (.invalidByte p))
    | some _ => ([], some .errLength)
  | p :: q :: rest =>
    match fromHexChar p with
    | none => ([], some (.invalidByte p))
    | some a =>
      match fromHexChar q with
      | none => ([], some (.invalidByte q))
      | some b =>
        (⟨((a <<< 4) ||| b) % 256, Nat.mod_lt _ (by decide)⟩ :: (hexDecode rest).1,
         (hexDecode rest).2)

/-- `hexStringToByteArray`. -/
def hexStringToByteArray (s : GoString) : List Byte × Option HexError :=
  let s := if s.length ≥ 2 ∧ s.take 2 = [0x30, 0x78] then s.drop 2 else s
  hexDecode s

/-- The seed `[]byte("stork_feed")`. -/
def storkFeedSeed : List Byte := [0x73, 0x74, 0x6f, 0x72, 0x6b, 0x5f, 0x66, 0x65, 0x65, 0x64]

/-- The type of `solana.FindProgramAddress`: seeds and program id to address and bump seed. -/
abbrev AddressFinder := List (List Byte) → PublicKey → Except String (PublicKey × Nat)

/-- The address derivation of the set-up loop in `main` for one asset; a `log.Fatal` is an
error result. -/
def deriveFeedAccount (findProgramAddress : AddressFinder) (contractPubKey : PublicKey)
    (encodedAssetId : GoString) : Except String PublicKey :=
  match hexStringToByteArray encodedAssetId with
  | (_, some _) => .error "Failed to convert encoded asset ID to bytes"
  | (encodedAssetIdBytes, none) =>
    match findProgramAddress [storkFeedSeed, encodedAssetIdBytes] contractPubKey with
    | .error _ => .error "Failed to derive PDA for feed account"
    | .ok (feedAccount, _) => .ok feedAccount

/-- `Asset`. -/
structure Asset where
  Name : String
  EncodedAssetId : GoString

/-- The assignment `feedAccounts[name] = feedAccount` on the list of map entries. -/
def setAccount (feedAccounts : List (String × PublicKey)) (name : String)
    (feedAccount : PublicKey) : List (String × PublicKey) :=
  feedAccounts.filter (fun p => p.1 ≠ name) ++ [(name, feedAccount)]

/-- The set-up loop of `main` over `config.Assets`, from given maps. -/
def setUpFrom (findProgramAddress : AddressFinder) (contractPubKey : PublicKey) :
    List Asset → List (String × PublicKey) × PriceFeeds →
      Except String (List (String × PublicKey) × PriceFeeds)
  | [], maps => .ok maps
  | asset :: rest, (feedAccounts, priceFeeds) =>
    match deriveFeedAccount findProgramAddress contractPubKey asset.EncodedAssetId with
    | .error e => .error e
    | .ok feedAccount =>
      setUpFrom findProgramAddress contractPubKey rest
        (setAccount feedAccounts asset.Name feedAccount,
         Function.update priceFeeds asset.Name
          (some { Name := asset.Name, Price := none, Timestamp := 0, LastUpdate := Time.zero }))

/-- The two maps `main` builds before the first tick. -/
def setUp (findProgramAddress : AddressFinder) (contractPubKey : PublicKey)
    (assets : List Asset) : Except String (List (String × PublicKey) × PriceFeeds) :=
  setUpFrom findProgramAddress contractPubKey assets ([], fun _ => none)

/-- The state `main` has reached before the first tick: every listed account has an entry,
named after its key, that holds no price yet. -/
def FreshTables (feedAccounts : List (String × PublicKey)) (priceFeeds : PriceFeeds) : Prop :=
  (feedAccounts.map Prod.fst).Nodup ∧
  ∀ p ∈ feedAccounts, priceFeeds p.1 =
    some { Name := p.1, Price := none, Timestamp := 0, LastUpdate := Time.zero }

instance (feedAccounts : List (String × PublicKey)) (priceFeeds : PriceFeeds) :
    Decidable (FreshTables feedAccounts priceFeeds) := by
  unfold FreshTables
  infer_instance

/-- The JSON encoding of the `Price` field: `null` for a nil pointer, otherwise the decimal
text `big.Int.MarshalJSON` produces. -/
def marshalPrice : Option Int → String
  | none => "null"
  | some v => toString v

/-! ## The identifier format in the words of the specification -/

/-- The bytes of the characters `0123456789abcdef`. -/
def lowerHexDigits : List Byte :=
  [0x30, 0x31, 0x32, 0x33, 0x34, 0x35, 0x36, 0x37, 0x38, 0x39, 0x61, 0x62, 0x63, 0x64, 0x65, 0x66]

/-- The bytes of the characters `0123456789ABCDEF`. -/
def upperHexDigits : List Byte :=
  [0x30, 0x31, 0x32, 0x33, 0x34, 0x35, 0x36, 0x37, 0x38, 0x39, 0x41, 0x42, 0x43, 0x44, 0x45, 0x46]

/-- A hexadecimal digit, in either case. -/
def isHexDigit (c : Byte) : Bool := c ∈ lowerHexDigits || c ∈ upperHexDigits

/-- The value of a hexadecimal digit: its place among the sixteen digits. -/
def hexDigitValue (c : Byte) : Nat :=
  min (lowerHexDigits.indexOf c) (upperHexDigits.indexOf c)

/-- The string with one leading `0x` removed, if there is one. -/
def withoutLeading0x : GoString → GoString
  | 0x30 :: 0x78 :: rest => rest
  | s => s

/-- A valid hex string: an even number of hexadecimal digits. -/
def validHex (h : GoString) : Prop := h.length % 2 = 0 ∧ ∀ c ∈ h, isHexDigit c = true

instance (h : GoString) : Decidable (validHex h) := by
  unfold validHex
  infer_instance

/-- The byte sequence a string of hex digits denotes, two digits to the byte. -/
def hexMeaning : GoString → List Byte
  | hi :: lo :: rest =>
    ⟨(16 * hexDigitValue hi + hexDigitValue lo) % 256, Nat.mod_lt _ (by decide)⟩
      :: hexMeaning rest
  | _ => []

/-! ## Console rendering -/

/-- The verbs `%-10s` and `%-12.8f` pad on the right with blanks up to the width, counted in
runes. -/
def padRight (width : Nat) (s : String) : String :=
  s ++ String.mk (List.replicate (width - s.length) ' ')

/-- The quotient `a / b` rounded to the nearest integer, ties to the even one: the rounding
mode `ToNearestEven` of `big.Float` and the decimal rounding of its `%f` conversion. -/
def roundHalfEven (a b : Nat) : Nat :=
  if 2 * (a % b) < b then a / b
  else if b < 2 * (a % b) then a / b + 1
  else if a / b % 2 = 0 then a / b else a / b + 1

/-- Digit count in base two, by halving. -/
def bitLenFuel : Nat → Nat → Nat
  | 0, _ => 0
  | fuel + 1, n => if n = 0 then 0 else bitLenFuel fuel (n / 2) + 1

/-- `big.Int.BitLen` of a magnitude. -/
def bitLen (n : Nat) : Nat := bitLenFuel n n

/-- The magnitude of `new(big.Float).SetInt(p)` after `Quo(price, big.NewFloat(1e8))`, for
`n = |p|`, as a mantissa and a binary shift: the value is `mantissa / 2^shift`.  `SetInt`
gives the float the precision `max(BitLen, 64)`; `Quo` keeps that precision and rounds the
exact quotient to it, so the mantissa is the quotient scaled into `[2^(prec-1), 2^prec]` and
rounded half-even. -/
def quoE8 (n : Nat) : Nat × Nat :=
  let prec := max (bitLen n) 64
  let s0 := prec - bitLen n
  let s := if 2 ^ (prec - 1) * 10 ^ 8 ≤ n * 2 ^ (s0 + 26) then s0 + 26 else s0 + 27
  (roundHalfEven (n * 2 ^ s) (10 ^ 8), s)

/-- The float of `quoE8` converted by `%.8f`: its exact value rounded half-even to eight
decimals, counted in units of `10^-8`. -/
def scaledE8 (n : Nat) : Nat := roundHalfEven ((quoE8 n).1 * 10 ^ 8) (2 ^ (quoE8 n).2)

/-- Eight decimal digits, leading zeros kept. -/
def fraction8 (r : Nat) : String :=
  String.mk ([7, 6, 5, 4, 3, 2, 1, 0].map (fun i => Nat.digitChar (r / 10 ^ i % 10)))

/-- A sign, the integer digits, the point and eight fractional digits of `k * 10^-8`. -/
def decimal8 (neg : Bool) (k : Nat) : String :=
  (if neg then "-" else "") ++ toString (k / 10 ^ 8) ++ "." ++ fraction8 (k % 10 ^ 8)

/-- The verb `%-12.8f` applied to the `big.Float` quotient of the price by `1e8`. -/
def formatPrice (p : Int) : String :=
  padRight 12 (decimal8 (decide (p < 0)) (scaledE8 p.natAbs))

/-- The conversion `int64(feed.Timestamp)`. -/
def toInt64 (u : Nat) : Int :=
  if u % 2 ^ 64 < 2 ^ 63 then ((u % 2 ^ 64 : Nat) : Int) else ((u % 2 ^ 64 : Nat) : Int) - 2 ^ 64

/-- Year, month and day of the proleptic Gregorian calendar for a day count from
1970-01-01. -/
def civilFromDays (z : Int) : Int × Int × Int :=
  let z1 := z + 719468
  let era := z1 / 146097
  let doe := z1 - era * 146097
  let yoe := (doe - doe / 1460 + doe / 36524 - doe / 146096) / 365
  let doy := doe - (365 * yoe + yoe / 4 - yoe / 100)
  let mp := (5 * doy + 2) / 153
  let d := doy - (153 * mp + 2) / 5 + 1
  let m := if mp < 10 then mp + 3 else mp - 9
  (if m ≤ 2 then yoe + era * 400 + 1 else yoe + era * 400, m, d)

/-- A non-negative number in at least `width` decimal digits. -/
def zeroPad (width : Nat) (n : Int) : String :=
  String.mk (List.replicate (width - (toString n.toNat).length) '0') ++ toString n.toNat

/-- The zone suffix of the layout element `Z07:00`. -/
def zoneSuffix (offset : Int) : String :=
  if offset = 0 then "Z"
  else (if offset < 0 then "-" else "+") ++ zeroPad 2 (offset.natAbs / 3600) ++ ":" ++
    zeroPad 2 (offset.natAbs % 3600 / 60)

/-- The text of `time.Unix(0, nsec).Format(time.RFC3339)`; `zone` is the local zone, giving
the offset from UTC in seconds at a Unix second. -/
def formatRFC3339 (zone : Int → Int) (nsec : Int) : String :=
  let sec := nsec / 10 ^ 9
  let loc := sec + zone sec
  let date := civilFromDays (loc / 86400)
  let rem := loc % 86400
  zeroPad 4 date.1 ++ "-" ++ zeroPad 2 date.2.1 ++ "-" ++ zeroPad 2 date.2.2 ++ "T" ++
    zeroPad 2 (rem / 3600) ++ ":" ++ zeroPad 2 (rem % 3600 / 60) ++ ":" ++ zeroPad 2 (rem % 60) ++
    zoneSuffix (zone sec)

/-- The line `displayPrices` prints for one entry. -/
def displayLine (zone : Int → Int) (feed : PriceFeed) : String :=
  match feed.Price with
  | some price =>
    padRight 10 feed.Name ++ ": $" ++ formatPrice price ++ " (timestamp: " ++
      formatRFC3339 zone (toInt64 feed.Timestamp) ++ ")\n"
  | none => padRight 10 feed.Name ++ ": No data available\n"

/-- `displayPrices`: header, one line per entry in the order `range` visits the map, footer.
`nowText` is `time.Now().Format(time.RFC3339)`. -/
def displayPrices (zone : Int → Int) (nowText : String) (feeds : List PriceFeed) :
    List String :=
  ["\n----- Solana Ecosystem Price Feed -----\n", "Updated at: " ++ nowText ++ "\n",
    "----------------------------------------\n"] ++
  feeds.map (displayLine zone) ++ ["----------------------------------------\n"]

/-- The zone UTC. -/
def utc : Int → Int := fun _ => 0

/-! ## The price text in the words of the specification -/

/-- The raw integer divided by `10^8`, written with exactly eight fractional digits. -/
def exactDecimal8 (p : Int) : String :=
  (if p < 0 then "-" else "") ++ toString (p.natAbs / 10 ^ 8) ++ "." ++
    fraction8 (p.natAbs % 10 ^ 8)

/-! ## The web handlers next to the sampling loop

The handlers of `startWebServer` read the table between `priceFeedsMutex.RLock()` and
`RUnlock()`.  `updatePriceFeeds` stores the three fields of an entry one after the other and
never calls `priceFeedsMutex.Lock()`.  The interleavings of one handler with the write step
on one entry are given as a step function. -/

/-- `sync.RWMutex`: the number of read locks held and whether the write lock is held. -/
structure RWMutex where
  readers : Nat
  writer : Bool
  deriving DecidableEq

/-- The statement of `updatePriceFeeds` the sampling loop executes next for the entry. -/
inductive WriterAt where
  | line165
  | line166
  | line167
  | done
  deriving DecidableEq

/-- Where a handler stands: before `RLock`, holding the read lock, after `RUnlock`. -/
inductive ReaderAt where
  | idle
  | locked
  | released
  deriving DecidableEq

/-- The entry one key of `priceFeedsCache` points to, `priceFeedsMutex`, the two program
counters, and what the handler has encoded. -/
structure Shared where
  entry : PriceFeed
  mutex : RWMutex
  writer : WriterAt
  reader : ReaderAt
  seen : Option PriceFeed
  deriving DecidableEq

/-- One scheduling decision: the loop executes its next store, or the handler takes the read
lock, encodes the entry, or releases the lock. -/
inductive Move where
  | store
  | rlock
  | encode
  | runlock
  deriving DecidableEq

/-- One step; `none` when the chosen thread cannot move.  The stores of the loop are not
guarded by the mutex, as in the source; `RLock` waits only for a held write lock. -/
def step (account : TemporalNumericValueFeedAccount) (t : Time) (w : Shared) :
    Move → Option Shared
  | .store =>
    match w.writer with
    | .line165 =>
      some { w with
        entry := { w.entry with Price := some account.LatestValue.QuantizedValue.BigInt }
        writer := .line166 }
    | .line166 =>
      some { w with
        entry := { w.entry with Timestamp := account.LatestValue.TimestampNs }
        writer := .line167 }
    | .line167 =>
      some { w with entry := { w.entry with LastUpdate := t }, writer := .done }
    | .done => none
  | .rlock =>
    if w.reader = .idle ∧ w.mutex.writer = false then
      some { w with mutex := { w.mutex with readers := w.mutex.readers + 1 }, reader := .locked }
    else none
  | .encode =>
    if w.reader = .locked then some { w with seen := some w.entry } else none
  | .runlock =>
    if w.reader = .locked then
      some { w with
        mutex := { w.mutex with readers := w.mutex.readers - 1 }, reader := .released }
    else none

/-- A schedule, move by move. -/
def run (account : TemporalNumericValueFeedAccount) (t : Time) : Shared → List Move →
    Option Shared
  | w, [] => some w
  | w, m :: rest =>
    match step account t w m with
    | none => none
    | some w1 => run account t w1 rest

/-! ## Sample inputs -/

/-- A 32-byte id of zeros. -/
def sampleId : List Byte := List.replicate 32 0

/-- A well-formed account buffer: timestamp 1000, value 250000000000. -/
def sampleData : List Byte := encodeAccount sampleId 1000 250000000000 []

/-- An endpoint that serves `sampleData` for SOL/USD and fails for every other asset. -/
def sampleClient : Client := fun name _ =>
  if name = "SOL/USD" then .info sampleData else .failed "timeout"

/-- A table with two entries, both still without a price. -/
def sampleFeeds : PriceFeeds := fun name =>
  if name = "SOL/USD" ∨ name = "BTC/USD" then some ⟨name, none, 0, Time.zero⟩ else none

/-- A visiting order for the two assets. -/
def sampleVisit : List (String × PublicKey) := [("BTC/USD", []), ("SOL/USD", [])]

/-- A clock that always reads the same instant. -/
def sampleNow : String → Time := fun _ => 1700000000000000000

/-- The identifier text `abcd`. -/
def sampleHex : GoString := [0x61, 0x62, 0x63, 0x64]

/-- A stand-in address finder for examples: it concatenates the seeds and the program id. -/
def sampleFinder : AddressFinder := fun seeds programId => .ok (seeds.flatten ++ programId, 255)

/-- A configuration with the single asset SOL/USD, identifier `0xabcd`. -/
def sampleAssets : List Asset := [⟨"SOL/USD", [0x30, 0x78] ++ sampleHex⟩]

/-- The account table `main` builds for `sampleAssets` with the stand-in finder. -/
def sampleAccounts : List (String × PublicKey) :=
  [("SOL/USD", storkFeedSeed ++ [0xab, 0xcd] ++ sampleId)]

/-- The feed table `main` builds for `sampleAssets`. -/
def sampleStart : PriceFeeds :=
  Function.update (fun _ => none) "SOL/USD"
    (some { Name := "SOL/USD", Price := none, Timestamp := 0, LastUpdate := Time.zero })

/-- An endpoint that finds every account empty. -/
def emptyClient : Client := fun _ _ => .info []

/-- The SOL/USD entry after a tick that decoded `sampleData`. -/
def sampleEntry : PriceFeed :=
  { Name := "SOL/USD", Price := some 250000000000, Timestamp := 1000,
    LastUpdate := 1700000000000000000 }

/-- An entry whose price needs more than 64 bits of quotient precision. -/
def largeEntry : PriceFeed :=
  { Name := "BIG/USD", Price := some 13743895347200000002, Timestamp := 0,
    LastUpdate := 1700000000000000000 }

/-- The SOL/USD entry as an earlier tick left it. -/
def staleEntry : PriceFeed :=
  { Name := "SOL/USD", Price := some 240000000000, Timestamp := 900,
    LastUpdate := 1600000000000000000 }

/-- The account `sampleData` decodes to. -/
def sampleAccount : TemporalNumericValueFeedAccount :=
  (TemporalNumericValueFeedAccount.zero.UnmarshalWithDecoder (NewBorshDecoder sampleData)).obj

/-- Forty bytes of `0x07`: a complete id and a complete timestamp, but no quantized value. -/
def shortBuffer : List Byte := List.replicate 40 7

/-- The loop is about to execute line 165 for `staleEntry`; no handler is running. -/
def beforeWrite : Shared :=
  { entry := staleEntry, mutex := ⟨0, false⟩, writer := .line165, reader := .idle, seen := none }

/-! ## Codec lemmas -/

theorem encodeLE_length (w n : Nat) : (encodeLE w n).length = w := by
  induction w generalizing n with
  | zero => rfl
  | succ w ih => simp [encodeLE, ih]

theorem uintLE_encodeLE (w n : Nat) : uintLE (encodeLE w n) = n % 256 ^ w := by
  induction w generalizing n with
  | zero => simp [encodeLE, uintLE, Nat.mod_one]
  | succ w ih =>
    simp only [encodeLE, uintLE, ih]
    rw [pow_succ, mul_comm (256 ^ w) 256, Nat.mod_mul]

theorem uintLE_append (a b : List Byte) :
    uintLE (a ++ b) = uintLE a + 256 ^ a.length * uintLE b := by
  induction a with
  | nil => simp [uintLE]
  | cons x xs ih =>
    show x.val + 256 * uintLE (xs ++ b) = x.val + 256 * uintLE xs + 256 ^ (xs.length + 1) * uintLE b
    rw [ih, pow_succ]
    ring

theorem setBytes_foldl (bs : List Byte) (acc : Nat) :
    bs.foldl (fun acc b => acc * 256 + b.val) acc = acc * 256 ^ bs.length + setBytes bs := by
  induction bs generalizing acc with
  | nil => simp [setBytes]
  | cons x xs ih =>
    simp only [List.foldl_cons, setBytes, List.length_cons]
    rw [ih, ih (0 * 256 + x.val)]
    ring

theorem setBytes_reverse (bs : List Byte) : setBytes bs.reverse = uintLE bs := by
  induction bs with
  | nil => rfl
  | cons x xs ih =>
    have h := setBytes_foldl [x] (setBytes xs.reverse)
    simp only [setBytes, List.reverse_cons, List.foldl_append, List.foldl_cons, List.foldl_nil,
      uintLE] at *
    rw [ih]
    ring


theorem encodeLE_add (a b n : Nat) :
    encodeLE (a + b) n = encodeLE a n ++ encodeLE b (n / 256 ^ a) := by
  induction a generalizing n with
  | zero => simp [encodeLE]
  | succ a ih =>
    have h : a + 1 + b = (a + b) + 1 := by omega
    rw [h]
    simp only [encodeLE, List.cons_append, ih]
    rw [Nat.div_div_eq_div_mul, pow_succ, mul_comm 256 (256 ^ a)]

theorem uintLE_lt (l : List Byte) : uintLE l < 256 ^ l.length := by
  induction l with
  | nil => simp [uintLE]
  | cons x xs ih =>
    have hx := x.isLt
    simp only [uintLE, List.length_cons, pow_succ]
    omega

set_option maxRecDepth 100000 in
theorem byte_xor_ff : ∀ b : Byte, (b ^^^ 0xff).val = 255 - b.val := by decide

set_option maxRecDepth 100000 in
theorem byte_and_80 : ∀ b : Byte, (b &&& 0x80 = 0x80) ↔ 128 ≤ b.val := by decide

theorem uintLE_map_xor (l : List Byte) :
    uintLE (l.map (fun b => b ^^^ 0xff)) + uintLE l + 1 = 256 ^ l.length := by
  induction l with
  | nil => simp [uintLE]
  | cons x xs ih =>
    have hx := x.isLt
    have h := byte_xor_ff x
    simp only [List.map_cons, uintLE, List.length_cons, pow_succ, h]
    omega

theorem headD_reverse_snoc (l : List Byte) (x : Byte) : (l ++ [x]).reverse.headD 0 = x := by
  simp

/-- Arithmetic meaning of `Int128.BigInt`: the two words read as one 128-bit two's-complement
number. -/
theorem BigInt_eq (lo hi : Nat) (hlo : lo < 2 ^ 64) (hhi : hi < 2 ^ 64) :
    Int128.BigInt ⟨lo, hi⟩ =
      if 2 ^ 127 ≤ lo + 2 ^ 64 * hi then ((lo + 2 ^ 64 * hi : Nat) : Int) - 2 ^ 128
      else ((lo + 2 ^ 64 * hi : Nat) : Int) := by
  have hlen : (encodeLE 8 lo ++ encodeLE 8 hi).length = 16 := by
    simp [encodeLE_length]
  have hne : encodeLE 8 lo ++ encodeLE 8 hi ≠ [] := by
    intro h
    rw [h] at hlen
    simp at hlen
  have hU : uintLE (encodeLE 8 lo ++ encodeLE 8 hi) = lo + 2 ^ 64 * hi := by
    rw [uintLE_append, uintLE_encodeLE, uintLE_encodeLE, encodeLE_length]
    have e : (256 : Nat) ^ 8 = 2 ^ 64 := by norm_num
    rw [e, Nat.mod_eq_of_lt hlo, Nat.mod_eq_of_lt hhi]
  obtain ⟨ini, x, hl⟩ : ∃ ini x, encodeLE 8 lo ++ encodeLE 8 hi = ini ++ [x] :=
    ⟨_, _, (List.dropLast_append_getLast hne).symm⟩
  have hini : ini.length = 15 := by
    have := congrArg List.length hl
    simp [hlen] at this
    omega
  have hsplit : lo + 2 ^ 64 * hi = uintLE ini + 256 ^ 15 * x.val := by
    rw [← hU, hl, uintLE_append, hini]
    simp [uintLE]
  have hinilt : uintLE ini < 256 ^ 15 := by
    have := uintLE_lt ini
    rwa [hini] at this
  have hx := x.isLt
  have hxor := uintLE_map_xor (encodeLE 8 lo ++ encodeLE 8 hi)
  rw [hlen, hU] at hxor
  have hneg : twosComplement (encodeLE 8 lo ++ encodeLE 8 hi).reverse + (lo + 2 ^ 64 * hi)
      = 2 ^ 128 := by
    unfold twosComplement
    rw [List.map_reverse, setBytes_reverse]
    have e : (256 : Nat) ^ 16 = 2 ^ 128 := by norm_num
    omega
  have hpos : setBytes (encodeLE 8 lo ++ encodeLE 8 hi).reverse = lo + 2 ^ 64 * hi := by
    rw [setBytes_reverse, hU]
  have hhead : (encodeLE 8 lo ++ encodeLE 8 hi).reverse.headD 0 = x := by
    rw [hl]
    exact headD_reverse_snoc ini x
  have htop : (x &&& 0x80 = 0x80) ↔ 2 ^ 127 ≤ lo + 2 ^ 64 * hi := by
    rw [byte_and_80, hsplit]
    have e : (256 : Nat) ^ 15 = 2 ^ 120 := by norm_num
    rw [e] at hinilt ⊢
    constructor <;> intro h <;> omega
  unfold Int128.BigInt
  simp only [hhead, hpos]
  by_cases hc : 2 ^ 127 ≤ lo + 2 ^ 64 * hi
  · rw [if_pos (htop.mpr hc), if_pos hc]
    have : ((twosComplement (encodeLE 8 lo ++ encodeLE 8 hi).reverse : Nat) : Int)
        + ((lo + 2 ^ 64 * hi : Nat) : Int) = 2 ^ 128 := by
      exact_mod_cast hneg
    linarith
  · rw [if_neg (fun h => hc (htop.mp h)), if_neg hc]


/-! ## Decoding an encoded account -/

theorem encodeAccount_length (id : List Byte) (t : Nat) (v : Int) (trailing : List Byte) :
    (encodeAccount id t v trailing).length = id.length + 24 + trailing.length := by
  simp only [encodeAccount, List.length_append, encodeLE_length]

theorem unmarshal_encodeAccount (obj : TemporalNumericValueFeedAccount) (id : List Byte)
    (t : Nat) (v : Int) (trailing : List Byte) (hid : id.length = 32) :
    obj.UnmarshalWithDecoder (NewBorshDecoder (encodeAccount id t v trailing)) =
      ⟨{ Id := id,
         LatestValue :=
          { TimestampNs := t % 2 ^ 64,
            QuantizedValue :=
              ⟨(v % 2 ^ 128).toNat % 2 ^ 64, (v % 2 ^ 128).toNat / 2 ^ 64 % 2 ^ 64⟩ } },
       ⟨encodeAccount id t v trailing, 56⟩, none⟩ := by
  have e8 : (256 : Nat) ^ 8 = 2 ^ 64 := by norm_num
  have hlen : (encodeAccount id t v trailing).length = 56 + trailing.length := by
    simp [encodeAccount, encodeLE_length, hid]
    omega
  have hsplit : encodeLE 16 (v % 2 ^ 128).toNat
      = encodeLE 8 (v % 2 ^ 128).toNat ++ encodeLE 8 ((v % 2 ^ 128).toNat / 256 ^ 8) :=
    encodeLE_add 8 8 _
  have h1 : (encodeAccount id t v trailing).take 32 = id := by
    unfold encodeAccount
    rw [List.append_assoc, List.append_assoc]
    exact List.take_left' hid
  have h2 : ((encodeAccount id t v trailing).drop 32).take 8 = encodeLE 8 t := by
    unfold encodeAccount
    rw [List.append_assoc, List.append_assoc, List.drop_left' hid, ← List.append_assoc]
    exact List.take_left' (encodeLE_length 8 t)
  have h3 : ((encodeAccount id t v trailing).drop 40).take 16
      = encodeLE 16 (v % 2 ^ 128).toNat := by
    unfold encodeAccount
    have : (id ++ encodeLE 8 t).length = 40 := by simp [encodeLE_length, hid]
    rw [List.append_assoc (id ++ encodeLE 8 t), List.drop_left' this]
    exact List.take_left' (encodeLE_length 16 _)
  have h4 : (encodeLE 16 (v % 2 ^ 128).toNat).take 8 = encodeLE 8 (v % 2 ^ 128).toNat := by
    rw [hsplit]
    exact List.take_left' (encodeLE_length 8 _)
  have h5 : (encodeLE 16 (v % 2 ^ 128).toNat).drop 8
      = encodeLE 8 ((v % 2 ^ 128).toNat / 256 ^ 8) := by
    rw [hsplit]
    exact List.drop_left' (encodeLE_length 8 _)
  have r1 : (NewBorshDecoder (encodeAccount id t v trailing)).DecodeId obj.Id
      = ⟨id, ⟨encodeAccount id t v trailing, 32⟩, none⟩ := by
    have c : ¬ ((encodeAccount id t v trailing).length - 0 < 32) := by rw [hlen]; omega
    simp only [Decoder.DecodeId, Decoder.ReadNBytes, Decoder.Remaining, NewBorshDecoder,
      if_neg c, List.drop_zero, h1, Nat.zero_add]
  have r2 : ∀ cur : TemporalNumericValue,
      (⟨encodeAccount id t v trailing, 32⟩ : Decoder).DecodeLatestValue cur
      = ⟨{ TimestampNs := t % 2 ^ 64,
           QuantizedValue :=
            ⟨(v % 2 ^ 128).toNat % 2 ^ 64, (v % 2 ^ 128).toNat / 2 ^ 64 % 2 ^ 64⟩ },
         ⟨encodeAccount id t v trailing, 56⟩, none⟩ := by
    intro cur
    have c2 : ¬ ((encodeAccount id t v trailing).length - 32 < 8) := by rw [hlen]; omega
    have c3 : ¬ ((encodeAccount id t v trailing).length - 40 < 16) := by rw [hlen]; omega
    simp only [Decoder.DecodeLatestValue, Decoder.ReadUint64, Decoder.ReadInt128,
      Decoder.Remaining, if_neg c2, Nat.reduceAdd, if_neg c3, h2, h3, h4, h5,
      uintLE_encodeLE, e8]
  simp only [TemporalNumericValueFeedAccount.UnmarshalWithDecoder, r1, r2]


theorem DecodeId_of_lt (dec : Decoder) (cur : List Byte) (h : dec.Remaining < 32) :
    dec.DecodeId cur = ⟨cur, dec, some (.short 32 dec.Remaining)⟩ := by
  simp only [Decoder.DecodeId, Decoder.ReadNBytes, if_pos h]

theorem DecodeId_of_ge (dec : Decoder) (cur : List Byte) (h : ¬ dec.Remaining < 32) :
    dec.DecodeId cur =
      ⟨(dec.data.drop dec.pos).take 32, { dec with pos := dec.pos + 32 }, none⟩ := by
  simp only [Decoder.DecodeId, Decoder.ReadNBytes, if_neg h]

theorem DecodeLatestValue_of_lt (dec : Decoder) (cur : TemporalNumericValue)
    (h : dec.Remaining < 24) : (dec.DecodeLatestValue cur).err ≠ none := by
  by_cases c2 : dec.Remaining < 8
  · simp only [Decoder.DecodeLatestValue, Decoder.ReadUint64, if_pos c2]
    simp
  · have c3 : Decoder.Remaining { dec with pos := dec.pos + 8 } < 16 := by
      simp only [Decoder.Remaining] at *
      omega
    simp only [Decoder.DecodeLatestValue, Decoder.ReadUint64, if_neg c2, Decoder.ReadInt128,
      if_pos c3]
    simp

theorem unmarshal_short (obj : TemporalNumericValueFeedAccount) (buf : List Byte)
    (h : buf.length < 56) :
    (obj.UnmarshalWithDecoder (NewBorshDecoder buf)).err ≠ none := by
  by_cases c1 : (NewBorshDecoder buf).Remaining < 32
  · simp only [TemporalNumericValueFeedAccount.UnmarshalWithDecoder, DecodeId_of_lt _ _ c1]
    simp
  · have c2 : Decoder.Remaining
        { NewBorshDecoder buf with pos := (NewBorshDecoder buf).pos + 32 } < 24 := by
      simp only [Decoder.Remaining, NewBorshDecoder] at *
      omega
    have hlv := DecodeLatestValue_of_lt _ obj.LatestValue c2
    simp only [TemporalNumericValueFeedAccount.UnmarshalWithDecoder, DecodeId_of_ge _ _ c1]
    revert hlv
    cases (Decoder.DecodeLatestValue
      { NewBorshDecoder buf with pos := (NewBorshDecoder buf).pos + 32 } obj.LatestValue).err with
    | none => intro hlv; exact absurd rfl hlv
    | some e => intro _; simp

theorem DecodeLatestValue_lt8 (dec : Decoder) (cur : TemporalNumericValue)
    (h : dec.Remaining < 8) :
    dec.DecodeLatestValue cur = ⟨cur, dec, some (.short 8 dec.Remaining)⟩ := by
  simp only [Decoder.DecodeLatestValue, Decoder.ReadUint64, if_pos h]

theorem DecodeLatestValue_lt24 (dec : Decoder) (cur : TemporalNumericValue)
    (h1 : ¬ dec.Remaining < 8) (h2 : dec.Remaining < 24) :
    dec.DecodeLatestValue cur =
      ⟨{ cur with TimestampNs := uintLE ((dec.data.drop dec.pos).take 8) },
       { dec with pos := dec.pos + 8 },
       some (.short 16 (Decoder.Remaining { dec with pos := dec.pos + 8 }))⟩ := by
  have c3 : Decoder.Remaining { dec with pos := dec.pos + 8 } < 16 := by
    simp only [Decoder.Remaining] at *
    omega
  simp only [Decoder.DecodeLatestValue, Decoder.ReadUint64, if_neg h1, Decoder.ReadInt128,
    if_pos c3]

/-- What a failed decode leaves in the receiver: the id once 32 bytes were there, the
timestamp once 40 were, and never the quantized value. -/
theorem unmarshal_short_obj (obj : TemporalNumericValueFeedAccount) (buf : List Byte)
    (h : buf.length < 56) :
    (obj.UnmarshalWithDecoder (NewBorshDecoder buf)).obj =
      { Id := if 32 ≤ buf.length then buf.take 32 else obj.Id
        LatestValue :=
          { TimestampNs :=
              if 40 ≤ buf.length then uintLE ((buf.drop 32).take 8)
              else obj.LatestValue.TimestampNs
            QuantizedValue := obj.LatestValue.QuantizedValue } } := by
  obtain ⟨id0, ts0, q0⟩ := obj
  by_cases c1 : (NewBorshDecoder buf).Remaining < 32
  · have n1 : ¬ 32 ≤ buf.length := by
      simp only [Decoder.Remaining, NewBorshDecoder] at c1
      omega
    have n2 : ¬ 40 ≤ buf.length := by omega
    simp only [TemporalNumericValueFeedAccount.UnmarshalWithDecoder, DecodeId_of_lt _ _ c1,
      if_neg n1, if_neg n2]
  · have p1 : 32 ≤ buf.length := by
      simp only [Decoder.Remaining, NewBorshDecoder] at c1
      omega
    by_cases c2 : Decoder.Remaining
        { NewBorshDecoder buf with pos := (NewBorshDecoder buf).pos + 32 } < 8
    · have n2 : ¬ 40 ≤ buf.length := by
        simp only [Decoder.Remaining, NewBorshDecoder] at c2
        omega
      simp only [TemporalNumericValueFeedAccount.UnmarshalWithDecoder, DecodeId_of_ge _ _ c1,
        DecodeLatestValue_lt8 _ _ c2]
      simp only [if_pos p1, if_neg n2, NewBorshDecoder, List.drop_zero]
    · have p2 : 40 ≤ buf.length := by
        simp only [Decoder.Remaining, NewBorshDecoder] at c2
        omega
      have c3 : Decoder.Remaining
          { NewBorshDecoder buf with pos := (NewBorshDecoder buf).pos + 32 } < 24 := by
        simp only [Decoder.Remaining, NewBorshDecoder]
        omega
      simp only [TemporalNumericValueFeedAccount.UnmarshalWithDecoder, DecodeId_of_ge _ _ c1,
        DecodeLatestValue_lt24 _ _ c2 c3]
      simp only [if_pos p1, if_pos p2, NewBorshDecoder, List.drop_zero, Nat.zero_add]

/-! ## The tick -/

theorem updateOne_spec (client : Client) (now : String → Time) (priceFeeds : PriceFeeds)
    (name : String) (feedAccount : PublicKey) (e : PriceFeed) (he : priceFeeds name = some e) :
    updateOne client now priceFeeds name feedAccount =
      some (Function.update priceFeeds name
        (some (refreshed (client name feedAccount) (now name) e))) := by
  have hself : Function.update priceFeeds name (some e) = priceFeeds := by
    rw [← he]
    exact Function.update_eq_self name priceFeeds
  unfold updateOne refreshed decodedAccount
  cases hc : client name feedAccount with
  | failed msg => simp [hself]
  | nilInfo => simp [hself]
  | info data =>
    by_cases hd : data.length = 0
    · simp [hd, hself]
    · simp only [hd, if_false]
      cases hr : (TemporalNumericValueFeedAccount.zero.UnmarshalWithDecoder
          (NewBorshDecoder data)).err with
      | some err => simp [hself]
      | none => simp [he, writeEntry]

theorem updatePriceFeeds_spec (client : Client) (now : String → Time) :
    ∀ (visit : List (String × PublicKey)) (priceFeeds : PriceFeeds),
      (visit.map Prod.fst).Nodup →
      (∀ p ∈ visit, (priceFeeds p.1).isSome) →
      ∃ after, updatePriceFeeds client now visit priceFeeds = some after ∧
        (∀ n a, (n, a) ∈ visit →
          after n = (priceFeeds n).map (refreshed (client n a) (now n))) ∧
        (∀ n, n ∉ visit.map Prod.fst → after n = priceFeeds n) := by
  intro visit
  induction visit with
  | nil =>
    intro priceFeeds _ _
    exact ⟨priceFeeds, rfl, by simp, by simp⟩
  | cons hd rest ih =>
    intro priceFeeds hnd hdef
    obtain ⟨n0, a0⟩ := hd
    simp only [List.map_cons, List.nodup_cons] at hnd
    obtain ⟨hn0, hrest⟩ := hnd
    obtain ⟨e0, he0⟩ := Option.isSome_iff_exists.mp (hdef (n0, a0) (List.mem_cons_self _ _))
    have hstep := updateOne_spec client now priceFeeds n0 a0 e0 he0
    have hframe : ∀ n, n ≠ n0 →
        Function.update priceFeeds n0 (some (refreshed (client n0 a0) (now n0) e0)) n
          = priceFeeds n := fun n hn => Function.update_noteq hn _ _
    have hmem : ∀ p ∈ rest, p.1 ≠ n0 := by
      intro p hp heq
      exact hn0 (heq ▸ List.mem_map_of_mem Prod.fst hp)
    obtain ⟨after, hrun, hin, hout⟩ :=
      ih (Function.update priceFeeds n0 (some (refreshed (client n0 a0) (now n0) e0))) hrest
        (by
          intro p hp
          rw [hframe p.1 (hmem p hp)]
          exact hdef p (List.mem_cons_of_mem _ hp))
    refine ⟨after, ?_, ?_, ?_⟩
    · simp only [updatePriceFeeds, hstep, hrun]
    · intro n a hna
      rcases List.mem_cons.mp hna with h | h
      · obtain ⟨rfl, rfl⟩ := Prod.mk.inj h
        rw [hout n hn0, Function.update_same, he0]
        rfl
      · rw [hin n a h, hframe n (hmem (n, a) h)]
    · intro n hn
      simp only [List.map_cons, List.mem_cons, not_or] at hn
      rw [hout n hn.2, hframe n hn.1]


theorem updateOne_skip (client : Client) (now : String → Time) (priceFeeds : PriceFeeds)
    (name : String) (feedAccount : PublicKey)
    (h : decodedAccount (client name feedAccount) = none) :
    updateOne client now priceFeeds name feedAccount = some priceFeeds := by
  unfold decodedAccount at h
  unfold updateOne
  cases hc : client name feedAccount with
  | failed msg => rfl
  | nilInfo => rfl
  | info data =>
    rw [hc] at h
    by_cases hd : data.length = 0
    · simp [hd]
    · simp only [hd, if_false] at h ⊢
      cases hr : (TemporalNumericValueFeedAccount.zero.UnmarshalWithDecoder
          (NewBorshDecoder data)).err with
      | some err => rfl
      | none => simp [hr] at h

theorem decodedAccount_short (buf : List Byte) (h : buf.length < 56) :
    decodedAccount (.info buf) = none := by
  unfold decodedAccount
  by_cases hd : buf.length = 0
  · simp [hd]
  · have := unmarshal_short TemporalNumericValueFeedAccount.zero buf h
    simp only [hd, if_false]
    cases hr : (TemporalNumericValueFeedAccount.zero.UnmarshalWithDecoder
        (NewBorshDecoder buf)).err with
    | some err => rfl
    | none => exact absurd hr this

theorem signed128_of_emod (v : Int) (hlo : -2 ^ 127 ≤ v) (hhi : v < 2 ^ 127) :
    (if 2 ^ 127 ≤ (v % 2 ^ 128).toNat then (((v % 2 ^ 128).toNat : Nat) : Int) - 2 ^ 128
      else (((v % 2 ^ 128).toNat : Nat) : Int)) = v := by
  have hnn : 0 ≤ v % 2 ^ 128 := Int.emod_nonneg _ (by norm_num)
  have hcast : (((v % 2 ^ 128).toNat : Nat) : Int) = v % 2 ^ 128 := Int.toNat_of_nonneg hnn
  by_cases hv : 0 ≤ v
  · have e : v % 2 ^ 128 = v := Int.emod_eq_of_lt hv (by linarith)
    have hlt : ¬ (2 ^ 127 ≤ (v % 2 ^ 128).toNat) := by
      intro hc
      have : ((2 ^ 127 : Nat) : Int) ≤ (((v % 2 ^ 128).toNat : Nat) : Int) := by
        exact_mod_cast hc
      rw [hcast, e] at this
      push_cast at this
      linarith
    rw [if_neg hlt, hcast, e]
  · have e : v % 2 ^ 128 = v + 2 ^ 128 := by
      have h1 : (v + 2 ^ 128) % 2 ^ 128 = v % 2 ^ 128 := by
        rw [Int.add_emod_self]
      rw [← h1]
      exact Int.emod_eq_of_lt (by linarith) (by linarith)
    have hge : 2 ^ 127 ≤ (v % 2 ^ 128).toNat := by
      have : ((2 ^ 127 : Nat) : Int) ≤ (((v % 2 ^ 128).toNat : Nat) : Int) := by
        rw [hcast, e]
        push_cast
        linarith
      exact_mod_cast this
    rw [if_pos hge, hcast, e]
    ring

theorem quantized_value (v : Int) (hlo : -2 ^ 127 ≤ v) (hhi : v < 2 ^ 127) :
    Int128.BigInt ⟨(v % 2 ^ 128).toNat % 2 ^ 64, (v % 2 ^ 128).toNat / 2 ^ 64 % 2 ^ 64⟩ = v := by
  have hn : (v % 2 ^ 128).toNat < 2 ^ 128 := by
    have h1 : v % 2 ^ 128 < 2 ^ 128 := Int.emod_lt_of_pos _ (by norm_num)
    have h0 : 0 ≤ v % 2 ^ 128 := Int.emod_nonneg _ (by norm_num)
    have hc : ((2 ^ 128 : Nat) : Int) = 2 ^ 128 := by norm_cast
    have h2 : v % 2 ^ 128 < ((2 ^ 128 : Nat) : Int) := by
      rw [hc]
      exact h1
    exact (Int.toNat_lt h0).mpr h2
  have hfin := signed128_of_emod v hlo hhi
  revert hfin
  generalize (v % 2 ^ 128).toNat = n at hn ⊢
  intro hfin
  have hhi64 : n / 2 ^ 64 < 2 ^ 64 := by
    rw [Nat.div_lt_iff_lt_mul (by norm_num)]
    calc n < 2 ^ 128 := hn
      _ = 2 ^ 64 * 2 ^ 64 := by norm_num
  rw [Nat.mod_eq_of_lt hhi64, BigInt_eq _ _ (Nat.mod_lt _ (by norm_num)) hhi64,
    Nat.mod_add_div]
  exact hfin

/-! ## Claims about the account decoder -/

/-- C1: for every 32-byte id, timestamp `t < 2^64`, integer `v` in the signed 128-bit range
and trailing bytes, decoding `id ++ LE8(t) ++ LE16(v) ++ trailing` succeeds and yields
`Id = id`, `TimestampNs = t` and `QuantizedValue.BigInt() = v`. -/
theorem decode_roundtrip (obj : TemporalNumericValueFeedAccount) (id : List Byte) (t : Nat)
    (v : Int) (trailing : List Byte) (hid : id.length = 32) (ht : t < 2 ^ 64)
    (hlo : -2 ^ 127 ≤ v) (hhi : v < 2 ^ 127) :
    (obj.UnmarshalWithDecoder (NewBorshDecoder (encodeAccount id t v trailing))).err = none ∧
    (obj.UnmarshalWithDecoder (NewBorshDecoder (encodeAccount id t v trailing))).obj.Id = id ∧
    (obj.UnmarshalWithDecoder
      (NewBorshDecoder (encodeAccount id t v trailing))).obj.LatestValue.TimestampNs = t ∧
    (obj.UnmarshalWithDecoder
      (NewBorshDecoder (encodeAccount id t v trailing))).obj.LatestValue.QuantizedValue.BigInt
        = v := by
  rw [unmarshal_encodeAccount obj id t v trailing hid]
  exact ⟨rfl, rfl, Nat.mod_eq_of_lt ht, quantized_value v hlo hhi⟩

set_option maxRecDepth 100000 in
/-- C2 as stated fails: on a 40-byte buffer the decoder returns an error, but beside it the
receiver holds the decoded id and the decoded timestamp, fields of a record that was never
completed. -/
theorem decode_short_exposes_fields :
    shortBuffer.length = 40 ∧
    (TemporalNumericValueFeedAccount.zero.UnmarshalWithDecoder
      (NewBorshDecoder shortBuffer)).err = some (.short 16 0) ∧
    (TemporalNumericValueFeedAccount.zero.UnmarshalWithDecoder
      (NewBorshDecoder shortBuffer)).obj.Id = List.replicate 32 7 ∧
    (TemporalNumericValueFeedAccount.zero.UnmarshalWithDecoder
      (NewBorshDecoder shortBuffer)).obj.LatestValue.TimestampNs = 506381209866536711 ∧
    (TemporalNumericValueFeedAccount.zero.UnmarshalWithDecoder
      (NewBorshDecoder shortBuffer)).obj ≠ TemporalNumericValueFeedAccount.zero := by
  decide

/-- C2, amended: on every buffer shorter than 56 bytes the decoder returns an error and the
loop body of `updatePriceFeeds` that received the buffer leaves the whole table as it was.
The receiver of the decoder is written through: after the failure it holds the id when at
least 32 bytes were supplied and the timestamp when at least 40 were, its quantized value is
the one it had before, and the loop body drops it. -/
theorem decode_short_fails (buf : List Byte) (h : buf.length < 56) :
    (∀ obj : TemporalNumericValueFeedAccount,
      (obj.UnmarshalWithDecoder (NewBorshDecoder buf)).err ≠ none) ∧
    (∀ (client : Client) (now : String → Time) (priceFeeds : PriceFeeds) (name : String)
        (feedAccount : PublicKey), client name feedAccount = .info buf →
      updateOne client now priceFeeds name feedAccount = some priceFeeds) ∧
    (∀ obj : TemporalNumericValueFeedAccount,
      (obj.UnmarshalWithDecoder (NewBorshDecoder buf)).obj =
        { Id := if 32 ≤ buf.length then buf.take 32 else obj.Id
          LatestValue :=
            { TimestampNs :=
                if 40 ≤ buf.length then uintLE ((buf.drop 32).take 8)
                else obj.LatestValue.TimestampNs
              QuantizedValue := obj.LatestValue.QuantizedValue } }) := by
  refine ⟨fun obj => unmarshal_short obj buf h, ?_, fun obj => unmarshal_short_obj obj buf h⟩
  intro client now priceFeeds name feedAccount hc
  apply updateOne_skip
  rw [hc]
  exact decodedAccount_short buf h

theorem decodedAccount_ok (data : List Byte) (hne : data ≠ [])
    (hdec : (TemporalNumericValueFeedAccount.zero.UnmarshalWithDecoder
      (NewBorshDecoder data)).err = none) :
    decodedAccount (.info data) =
      some (TemporalNumericValueFeedAccount.zero.UnmarshalWithDecoder
        (NewBorshDecoder data)).obj := by
  have hd : ¬ data.length = 0 := fun h => hne (List.length_eq_zero.mp h)
  simp only [decodedAccount, hd, if_false, hdec]

theorem decodedAccount_fail (res : AccountInfoResult)
    (hfail : (∃ msg, res = .failed msg) ∨ res = .nilInfo ∨
      ∃ data, res = .info data ∧ (data.length = 0 ∨
        (TemporalNumericValueFeedAccount.zero.UnmarshalWithDecoder
          (NewBorshDecoder data)).err ≠ none)) :
    decodedAccount res = none := by
  rcases hfail with ⟨msg, rfl⟩ | rfl | ⟨data, rfl, h⟩
  · rfl
  · rfl
  · unfold decodedAccount
    rcases h with h | h
    · simp [h]
    · by_cases hd : data.length = 0
      · simp [hd]
      · simp only [hd, if_false]
        cases hr : (TemporalNumericValueFeedAccount.zero.UnmarshalWithDecoder
            (NewBorshDecoder data)).err with
        | some err => rfl
        | none => exact absurd hr h

theorem updatePriceFeeds_perm (client : Client) (now : String → Time)
    (visit visit2 : List (String × PublicKey)) (priceFeeds : PriceFeeds)
    (hnd : (visit.map Prod.fst).Nodup) (hdef : ∀ p ∈ visit, (priceFeeds p.1).isSome)
    (hperm : visit2.Perm visit) :
    updatePriceFeeds client now visit2 priceFeeds = updatePriceFeeds client now visit priceFeeds := by
  have hnd2 : (visit2.map Prod.fst).Nodup := (hperm.map Prod.fst).nodup_iff.mpr hnd
  have hdef2 : ∀ p ∈ visit2, (priceFeeds p.1).isSome := fun p hp => hdef p (hperm.mem_iff.mp hp)
  obtain ⟨a1, h1, hin1, hout1⟩ := updatePriceFeeds_spec client now visit priceFeeds hnd hdef
  obtain ⟨a2, h2, hin2, hout2⟩ := updatePriceFeeds_spec client now visit2 priceFeeds hnd2 hdef2
  rw [h1, h2]
  congr 1
  funext n
  by_cases hn : n ∈ visit.map Prod.fst
  · obtain ⟨p, hp, rfl⟩ := List.mem_map.mp hn
    rw [hin1 p.1 p.2 hp, hin2 p.1 p.2 (hperm.mem_iff.mpr hp)]
  · have hn2 : n ∉ visit2.map Prod.fst := fun h => hn ((hperm.map Prod.fst).mem_iff.mp h)
    rw [hout1 n hn, hout2 n hn2]

/-! ## Claims about the tick -/

/-- C3: when the fetch for a configured asset returns a non-empty buffer that decodes, the
entry for that name after the tick has `Price` equal to the decoded quantized value as an
integer, `Timestamp` equal to the decoded timestamp, `LastUpdate` equal to the clock reading
of the write step, and the same `Name` as before. -/
theorem tick_updates_entry (client : Client) (now : String → Time)
    (visit : List (String × PublicKey)) (priceFeeds : PriceFeeds) (name : String)
    (feedAccount : PublicKey) (data : List Byte) (entry : PriceFeed)
    (hnd : (visit.map Prod.fst).Nodup)
    (hdef : ∀ p ∈ visit, (priceFeeds p.1).isSome)
    (hmem : (name, feedAccount) ∈ visit)
    (hfetch : client name feedAccount = .info data)
    (hne : data ≠ [])
    (hdec : (TemporalNumericValueFeedAccount.zero.UnmarshalWithDecoder
      (NewBorshDecoder data)).err = none)
    (hentry : priceFeeds name = some entry) :
    ∃ after, updatePriceFeeds client now visit priceFeeds = some after ∧
      after name = some
        { Name := entry.Name
          Price := some (TemporalNumericValueFeedAccount.zero.UnmarshalWithDecoder
            (NewBorshDecoder data)).obj.LatestValue.QuantizedValue.BigInt
          Timestamp := (TemporalNumericValueFeedAccount.zero.UnmarshalWithDecoder
            (NewBorshDecoder data)).obj.LatestValue.TimestampNs
          LastUpdate := now name } := by
  obtain ⟨after, hrun, hin, _⟩ := updatePriceFeeds_spec client now visit priceFeeds hnd hdef
  refine ⟨after, hrun, ?_⟩
  rw [hin name feedAccount hmem, hentry, hfetch]
  simp only [Option.map_some', refreshed, decodedAccount_ok data hne hdec, writeEntry]

/-- C4: an asset whose fetch fails, returns no account or an empty one, or whose buffer does
not decode keeps its entry exactly as it was before the tick; every asset of the same tick
whose fetch and decode succeed is updated; and the outcome is the same for every order in
which the assets are visited. -/
theorem tick_failure_isolated (client : Client) (now : String → Time)
    (visit : List (String × PublicKey)) (priceFeeds : PriceFeeds) (X : String)
    (accountX : PublicKey)
    (hnd : (visit.map Prod.fst).Nodup)
    (hdef : ∀ p ∈ visit, (priceFeeds p.1).isSome)
    (hX : (X, accountX) ∈ visit)
    (hfail : (∃ msg, client X accountX = .failed msg) ∨ client X accountX = .nilInfo ∨
      ∃ data, client X accountX = .info data ∧ (data.length = 0 ∨
        (TemporalNumericValueFeedAccount.zero.UnmarshalWithDecoder
          (NewBorshDecoder data)).err ≠ none)) :
    ∃ after, updatePriceFeeds client now visit priceFeeds = some after ∧
      after X = priceFeeds X ∧
      (∀ Y accountY data, (Y, accountY) ∈ visit → client Y accountY = .info data →
        data ≠ [] →
        (TemporalNumericValueFeedAccount.zero.UnmarshalWithDecoder
          (NewBorshDecoder data)).err = none →
        after Y = (priceFeeds Y).map (writeEntry
          (TemporalNumericValueFeedAccount.zero.UnmarshalWithDecoder
            (NewBorshDecoder data)).obj (now Y))) ∧
      (∀ visit2 : List (String × PublicKey), visit2.Perm visit →
        updatePriceFeeds client now visit2 priceFeeds = some after) := by
  obtain ⟨after, hrun, hin, _⟩ := updatePriceFeeds_spec client now visit priceFeeds hnd hdef
  refine ⟨after, hrun, ?_, ?_, ?_⟩
  · rw [hin X accountX hX]
    have hr : refreshed (client X accountX) (now X) = fun e => e := by
      funext e
      simp only [refreshed, decodedAccount_fail _ hfail]
    rw [hr]
    cases priceFeeds X <;> rfl
  · intro Y accountY data hY hfetch hne hdec
    rw [hin Y accountY hY, hfetch]
    congr 1
    funext e
    simp only [refreshed, decodedAccount_ok data hne hdec]
  · intro visit2 hperm
    rw [updatePriceFeeds_perm client now visit visit2 priceFeeds hnd hdef hperm, hrun]


theorem sampleData_decodes :
    (TemporalNumericValueFeedAccount.zero.UnmarshalWithDecoder
      (NewBorshDecoder sampleData)).err = none := by
  rw [sampleData, unmarshal_encodeAccount _ _ _ _ _ (by simp [sampleId])]

theorem sampleData_ne : sampleData ≠ [] := by
  simp [sampleData, encodeAccount, sampleId]

theorem sampleVisit_nodup : (sampleVisit.map Prod.fst).Nodup := by decide

theorem sampleFeeds_defined : ∀ p ∈ sampleVisit, (sampleFeeds p.1).isSome := by
  simp [sampleVisit, sampleFeeds]

/-- Witness for C1: a negative value with one trailing byte. -/
theorem decode_roundtrip_witness :
    (TemporalNumericValueFeedAccount.zero.UnmarshalWithDecoder
      (NewBorshDecoder (encodeAccount sampleId 1000 (-5) [7]))).err = none ∧
    (TemporalNumericValueFeedAccount.zero.UnmarshalWithDecoder
      (NewBorshDecoder (encodeAccount sampleId 1000 (-5) [7]))).obj.Id = sampleId ∧
    (TemporalNumericValueFeedAccount.zero.UnmarshalWithDecoder
      (NewBorshDecoder (encodeAccount sampleId 1000 (-5) [7]))).obj.LatestValue.TimestampNs
        = 1000 ∧
    (TemporalNumericValueFeedAccount.zero.UnmarshalWithDecoder
      (NewBorshDecoder
        (encodeAccount sampleId 1000 (-5) [7]))).obj.LatestValue.QuantizedValue.BigInt
        = -5 :=
  decode_roundtrip TemporalNumericValueFeedAccount.zero sampleId 1000 (-5) [7]
    (by simp [sampleId]) (by norm_num) (by norm_num) (by norm_num)

/-- Witness for C2: the 40-byte buffer, with the id complete and the value record cut off. -/
theorem decode_short_fails_witness :
    shortBuffer.length < 56 ∧
    (∀ obj : TemporalNumericValueFeedAccount,
      (obj.UnmarshalWithDecoder (NewBorshDecoder shortBuffer)).err ≠ none) ∧
    (∀ (client : Client) (now : String → Time) (priceFeeds : PriceFeeds) (name : String)
        (feedAccount : PublicKey), client name feedAccount = .info shortBuffer →
      updateOne client now priceFeeds name feedAccount = some priceFeeds) ∧
    (∀ obj : TemporalNumericValueFeedAccount,
      (obj.UnmarshalWithDecoder (NewBorshDecoder shortBuffer)).obj =
        { Id := if 32 ≤ shortBuffer.length then shortBuffer.take 32 else obj.Id
          LatestValue :=
            { TimestampNs :=
                if 40 ≤ shortBuffer.length then uintLE ((shortBuffer.drop 32).take 8)
                else obj.LatestValue.TimestampNs
              QuantizedValue := obj.LatestValue.QuantizedValue } }) :=
  ⟨by decide, decode_short_fails shortBuffer (by decide)⟩

/-- Witness for C3: the SOL/USD entry of the sample table after one tick. -/
theorem tick_updates_entry_witness :
    ∃ after, updatePriceFeeds sampleClient sampleNow sampleVisit sampleFeeds = some after ∧
      after "SOL/USD" = some
        { Name := (⟨"SOL/USD", none, 0, Time.zero⟩ : PriceFeed).Name
          Price := some (TemporalNumericValueFeedAccount.zero.UnmarshalWithDecoder
            (NewBorshDecoder sampleData)).obj.LatestValue.QuantizedValue.BigInt
          Timestamp := (TemporalNumericValueFeedAccount.zero.UnmarshalWithDecoder
            (NewBorshDecoder sampleData)).obj.LatestValue.TimestampNs
          LastUpdate := sampleNow "SOL/USD" } :=
  tick_updates_entry sampleClient sampleNow sampleVisit sampleFeeds "SOL/USD" [] sampleData
    ⟨"SOL/USD", none, 0, Time.zero⟩ sampleVisit_nodup sampleFeeds_defined
    (by simp [sampleVisit]) (by simp [sampleClient]) sampleData_ne sampleData_decodes
    (by simp [sampleFeeds])

/-- Witness for C4: the fetch for BTC/USD fails while SOL/USD is served. -/
theorem tick_failure_isolated_witness :
    ∃ after, updatePriceFeeds sampleClient sampleNow sampleVisit sampleFeeds = some after ∧
      after "BTC/USD" = sampleFeeds "BTC/USD" ∧
      (∀ Y accountY data, (Y, accountY) ∈ sampleVisit → sampleClient Y accountY = .info data →
        data ≠ [] →
        (TemporalNumericValueFeedAccount.zero.UnmarshalWithDecoder
          (NewBorshDecoder data)).err = none →
        after Y = (sampleFeeds Y).map (writeEntry
          (TemporalNumericValueFeedAccount.zero.UnmarshalWithDecoder
            (NewBorshDecoder data)).obj (sampleNow Y))) ∧
      (∀ visit2 : List (String × PublicKey), visit2.Perm sampleVisit →
        updatePriceFeeds sampleClient sampleNow visit2 sampleFeeds = some after) :=
  tick_failure_isolated sampleClient sampleNow sampleVisit sampleFeeds "BTC/USD" []
    sampleVisit_nodup sampleFeeds_defined (by simp [sampleVisit])
    (Or.inl ⟨"timeout", by simp [sampleClient]⟩)


/-! ## Hex identifiers -/

set_option maxRecDepth 100000 in
theorem fromHexChar_none : ∀ c : Byte, fromHexChar c = none ↔ isHexDigit c = false := by
  decide

set_option maxRecDepth 100000 in
theorem fromHexChar_some : ∀ c : Byte, ∀ a, fromHexChar c = some a →
    a = hexDigitValue c ∧ a < 16 := by
  intro c
  have h : fromHexChar c = none ∨
      fromHexChar c = some (hexDigitValue c) ∧ hexDigitValue c < 16 := by
    revert c
    decide
  intro a ha
  rcases h with h | ⟨h, hlt⟩
  · rw [h] at ha
    cases ha
  · rw [h] at ha
    cases ha
    exact ⟨rfl, hlt⟩

theorem nibbles_value : ∀ a < 16, ∀ b < 16, ((a <<< 4) ||| b) % 256 = (16 * a + b) % 256 := by
  decide


theorem validHex_cons2 (p q : Byte) (rest : GoString) :
    validHex (p :: q :: rest) ↔ isHexDigit p = true ∧ isHexDigit q = true ∧ validHex rest := by
  unfold validHex
  simp only [List.length_cons, List.mem_cons, forall_eq_or_imp]
  constructor
  · rintro ⟨hl, hp, hq, hr⟩
    exact ⟨hp, hq, by omega, hr⟩
  · rintro ⟨hp, hq, hl, hr⟩
    exact ⟨by omega, hp, hq, hr⟩

theorem isHexDigit_of_some (c : Byte) (a : Nat) (h : fromHexChar c = some a) :
    isHexDigit c = true := by
  cases hd : isHexDigit c with
  | true => rfl
  | false =>
    rw [(fromHexChar_none c).mpr hd] at h
    cases h

theorem hexDecode_spec : ∀ s : GoString,
    ((hexDecode s).2 = none ↔ validHex s) ∧
    ((hexDecode s).2 = none → (hexDecode s).1 = hexMeaning s)
  | [] => by simp [hexDecode, validHex, hexMeaning]
  | [p] => by
    cases hp : fromHexChar p <;> simp [hexDecode, validHex, hp]
  | p :: q :: rest => by
    have ih := hexDecode_spec rest
    rw [validHex_cons2]
    cases hp : fromHexChar p with
    | none =>
      have := (fromHexChar_none p).mp hp
      simp [hexDecode, hp, this]
    | some a =>
      cases hq : fromHexChar q with
      | none =>
        have := (fromHexChar_none q).mp hq
        simp [hexDecode, hp, hq, this]
      | some b =>
        have hpd := isHexDigit_of_some p a hp
        have hqd := isHexDigit_of_some q b hq
        obtain ⟨ha, ha16⟩ := fromHexChar_some p a hp
        obtain ⟨hb, hb16⟩ := fromHexChar_some q b hq
        have hv := nibbles_value a ha16 b hb16
        simp only [hexDecode, hp, hq, hpd, hqd, true_and, hexMeaning]
        refine ⟨ih.1, fun h => ?_⟩
        rw [ih.2 h]
        congr 1
        apply Fin.ext
        show ((a <<< 4) ||| b) % 256 = (16 * hexDigitValue p + hexDigitValue q) % 256
        rw [hv, ha, hb]

theorem not_validHex_iff (s : GoString) :
    ¬ validHex s ↔ (s.length % 2 = 1 ∨ ∃ c ∈ s, isHexDigit c = false) := by
  unfold validHex
  constructor
  · intro h
    by_cases hl : s.length % 2 = 0
    · right
      by_contra hc
      apply h
      refine ⟨hl, fun c hc2 => ?_⟩
      cases hd : isHexDigit c with
      | true => rfl
      | false => exact absurd ⟨c, hc2, hd⟩ hc
    · left
      omega
  · rintro (h | ⟨c, hc, hd⟩) ⟨hl, hall⟩
    · omega
    · rw [hall c hc] at hd
      cases hd

theorem strip_eq (s : GoString) :
    (if s.length ≥ 2 ∧ s.take 2 = [0x30, 0x78] then s.drop 2 else s) = withoutLeading0x s := by
  match s with
  | [] => simp [withoutLeading0x]
  | [a] => simp [withoutLeading0x]
  | a :: b :: rest =>
    by_cases ha : a = 0x30
    · by_cases hb : b = 0x78
      · subst ha hb
        simp [withoutLeading0x]
      · have : ¬ ((a :: b :: rest).length ≥ 2 ∧ (a :: b :: rest).take 2 = [0x30, 0x78]) := by
          simp [hb]
        rw [if_neg this]
        unfold withoutLeading0x
        split
        · rename_i heq
          simp at heq
          exact absurd heq.2.1 hb
        · rfl
    · have : ¬ ((a :: b :: rest).length ≥ 2 ∧ (a :: b :: rest).take 2 = [0x30, 0x78]) := by
        simp [ha]
      rw [if_neg this]
      unfold withoutLeading0x
      split
      · rename_i heq
        simp at heq
        exact absurd heq.1 ha
      · rfl

theorem hexStringToByteArray_eq (s : GoString) :
    hexStringToByteArray s = hexDecode (withoutLeading0x s) := by
  unfold hexStringToByteArray
  simp only [strip_eq]

theorem withoutLeading0x_valid (h : GoString) (hv : validHex h) : withoutLeading0x h = h := by
  unfold withoutLeading0x
  split
  · rename_i rest
    have h1 := hv.2 0x78 (by simp)
    have h2 : isHexDigit 0x78 = false := by decide
    rw [h2] at h1
    cases h1
  · rfl

theorem withoutLeading0x_prepend (h : GoString) : withoutLeading0x ([0x30, 0x78] ++ h) = h := by
  simp [withoutLeading0x]


/-! ## Claims about identifiers and address derivation -/

/-- C6: `hexStringToByteArray s` fails exactly when `s`, with one leading `0x` removed if
present, has odd length or holds a byte that is not a hexadecimal digit; when it succeeds it
returns the bytes the digits denote; and for a valid hex string `h` the inputs `h` and
`0x` followed by `h` give the same bytes, without error. -/
theorem hex_identifier (s h : GoString) :
    ((hexStringToByteArray s).2 ≠ none ↔
      ((withoutLeading0x s).length % 2 = 1 ∨
        ∃ c ∈ withoutLeading0x s, isHexDigit c = false)) ∧
    ((hexStringToByteArray s).2 = none →
      (hexStringToByteArray s).1 = hexMeaning (withoutLeading0x s)) ∧
    (validHex h →
      hexStringToByteArray ([0x30, 0x78] ++ h) = hexStringToByteArray h ∧
      hexStringToByteArray h = (hexMeaning h, none)) := by
  refine ⟨?_, ?_, ?_⟩
  · rw [hexStringToByteArray_eq, ← not_validHex_iff, ← (hexDecode_spec _).1]
  · rw [hexStringToByteArray_eq]
    exact (hexDecode_spec _).2
  · intro hv
    rw [hexStringToByteArray_eq, hexStringToByteArray_eq, withoutLeading0x_prepend,
      withoutLeading0x_valid h hv]
    have hnone := (hexDecode_spec h).1.mpr hv
    exact ⟨rfl, Prod.ext ((hexDecode_spec h).2 hnone) hnone⟩

set_option maxRecDepth 100000 in
theorem sampleHex_valid : validHex sampleHex := ⟨by decide, by decide⟩

/-- Witness for C6: the identifier `abcd`, bare and with the `0x` before it. -/
theorem hex_identifier_witness :
    validHex sampleHex ∧
    hexStringToByteArray ([0x30, 0x78] ++ sampleHex) = hexStringToByteArray sampleHex ∧
    hexStringToByteArray sampleHex = (hexMeaning sampleHex, none) :=
  ⟨sampleHex_valid, (hex_identifier [] sampleHex).2.2 sampleHex_valid⟩

theorem deriveFeedAccount_valid (findProgramAddress : AddressFinder)
    (contractPubKey : PublicKey) (h s : GoString) (hv : validHex h)
    (hs : s = h ∨ s = [0x30, 0x78] ++ h) :
    deriveFeedAccount findProgramAddress contractPubKey s =
      match findProgramAddress [storkFeedSeed, hexMeaning h] contractPubKey with
      | .error _ => .error "Failed to derive PDA for feed account"
      | .ok (feedAccount, _) => .ok feedAccount := by
  have hb : hexStringToByteArray s = (hexMeaning h, none) := by
    have hnone := (hexDecode_spec h).1.mpr hv
    rcases hs with rfl | rfl
    · rw [hexStringToByteArray_eq, withoutLeading0x_valid _ hv]
      exact Prod.ext ((hexDecode_spec _).2 hnone) hnone
    · rw [hexStringToByteArray_eq, withoutLeading0x_prepend]
      exact Prod.ext ((hexDecode_spec _).2 hnone) hnone
  unfold deriveFeedAccount
  rw [hb]

/-- C7: for every program id and every valid hex identifier, written with or without the
leading `0x`, the set-up code derives the same address each time: the result is the one
`FindProgramAddress` gives for the seeds `stork_feed` and the identifier bytes under that
program id, and nothing else enters it. -/
theorem derive_deterministic (findProgramAddress : AddressFinder)
    (contractPubKey : PublicKey) (h s1 s2 : GoString) (hv : validHex h)
    (h1 : s1 = h ∨ s1 = [0x30, 0x78] ++ h) (h2 : s2 = h ∨ s2 = [0x30, 0x78] ++ h) :
    deriveFeedAccount findProgramAddress contractPubKey s1 =
      deriveFeedAccount findProgramAddress contractPubKey s2 ∧
    deriveFeedAccount findProgramAddress contractPubKey s1 =
      (match findProgramAddress [storkFeedSeed, hexMeaning h] contractPubKey with
      | .error _ => .error "Failed to derive PDA for feed account"
      | .ok (feedAccount, _) => .ok feedAccount) := by
  rw [deriveFeedAccount_valid findProgramAddress contractPubKey h s1 hv h1,
    deriveFeedAccount_valid findProgramAddress contractPubKey h s2 hv h2]
  exact ⟨rfl, rfl⟩

/-- Witness for C7: `abcd` and `0xabcd` under the stand-in finder. -/
theorem derive_deterministic_witness :
    deriveFeedAccount sampleFinder sampleId sampleHex =
      deriveFeedAccount sampleFinder sampleId ([0x30, 0x78] ++ sampleHex) ∧
    deriveFeedAccount sampleFinder sampleId sampleHex =
      (match sampleFinder [storkFeedSeed, hexMeaning sampleHex] sampleId with
      | .error _ => .error "Failed to derive PDA for feed account"
      | .ok (feedAccount, _) => .ok feedAccount) :=
  derive_deterministic sampleFinder sampleId sampleHex sampleHex ([0x30, 0x78] ++ sampleHex)
    sampleHex_valid (Or.inl rfl) (Or.inr rfl)


/-! ## Set-up and the first two ticks -/

theorem setAccount_fresh (feedAccounts : List (String × PublicKey)) (priceFeeds : PriceFeeds)
    (name : String) (feedAccount : PublicKey) (h : FreshTables feedAccounts priceFeeds) :
    FreshTables (setAccount feedAccounts name feedAccount)
      (Function.update priceFeeds name
        (some { Name := name, Price := none, Timestamp := 0, LastUpdate := Time.zero })) := by
  obtain ⟨hnd, hent⟩ := h
  constructor
  · unfold setAccount
    rw [List.map_append, List.nodup_append]
    refine ⟨?_, by simp, ?_⟩
    · exact hnd.sublist ((List.filter_sublist _).map Prod.fst)
    · intro n hn hn2
      simp only [List.map_cons, List.map_nil, List.mem_singleton] at hn2
      obtain ⟨p, hp, rfl⟩ := List.mem_map.mp hn
      have := (List.mem_filter.mp hp).2
      simp only [ne_eq, decide_not, Bool.not_eq_true', decide_eq_false_iff_not] at this
      exact this hn2
  · intro p hp
    unfold setAccount at hp
    rcases List.mem_append.mp hp with h1 | h1
    · obtain ⟨hp1, hp2⟩ := List.mem_filter.mp h1
      simp only [ne_eq, decide_not, Bool.not_eq_true', decide_eq_false_iff_not] at hp2
      rw [Function.update_noteq hp2]
      exact hent p hp1
    · simp only [List.mem_singleton] at h1
      subst h1
      exact Function.update_same _ _ _

theorem setUpFrom_fresh (findProgramAddress : AddressFinder) (contractPubKey : PublicKey) :
    ∀ (assets : List Asset) (feedAccounts : List (String × PublicKey))
      (priceFeeds : PriceFeeds) (result : List (String × PublicKey) × PriceFeeds),
      FreshTables feedAccounts priceFeeds →
      setUpFrom findProgramAddress contractPubKey assets (feedAccounts, priceFeeds)
        = .ok result →
      FreshTables result.1 result.2 := by
  intro assets
  induction assets with
  | nil =>
    intro feedAccounts priceFeeds result hfresh hrun
    simp only [setUpFrom, Except.ok.injEq] at hrun
    subst hrun
    exact hfresh
  | cons asset rest ih =>
    intro feedAccounts priceFeeds result hfresh hrun
    simp only [setUpFrom] at hrun
    cases hd : deriveFeedAccount findProgramAddress contractPubKey asset.EncodedAssetId with
    | error e =>
      rw [hd] at hrun
      cases hrun
    | ok feedAccount =>
      rw [hd] at hrun
      exact ih _ _ result (setAccount_fresh _ _ _ _ hfresh) hrun

theorem setUp_fresh (findProgramAddress : AddressFinder) (contractPubKey : PublicKey)
    (assets : List Asset) (feedAccounts : List (String × PublicKey)) (priceFeeds : PriceFeeds)
    (h : setUp findProgramAddress contractPubKey assets = .ok (feedAccounts, priceFeeds)) :
    FreshTables feedAccounts priceFeeds :=
  setUpFrom_fresh findProgramAddress contractPubKey assets [] (fun _ => none)
    (feedAccounts, priceFeeds) ⟨by simp, by simp⟩ h

theorem sample_setUp :
    setUp sampleFinder sampleId sampleAssets = .ok (sampleAccounts, sampleStart) := by
  have hb : hexStringToByteArray ([0x30, 0x78] ++ sampleHex) = ([0xab, 0xcd], none) := by
    decide
  simp only [setUp, sampleAssets, setUpFrom, deriveFeedAccount, hb, sampleFinder]
  rfl


theorem decodedAccount_empty (res : AccountInfoResult)
    (h : res = .nilInfo ∨ res = .info []) : decodedAccount res = none := by
  rcases h with rfl | rfl
  · rfl
  · simp [decodedAccount]

/-- C9: from the tables `main` builds (every entry without a price), a first tick whose fetch
for an asset finds no account or an empty one leaves that asset with `Price = nil`, which the
JSON encoding writes as `null`; a second tick whose fetch returns a buffer encoding `v` leaves
it with `Price = v`. -/
theorem empty_then_valid (findProgramAddress : AddressFinder) (contractPubKey : PublicKey)
    (assets : List Asset) (feedAccounts : List (String × PublicKey)) (priceFeeds : PriceFeeds)
    (visit1 visit2 : List (String × PublicKey)) (client1 client2 : Client)
    (now1 now2 : String → Time) (name : String) (feedAccount : PublicKey)
    (id : List Byte) (t : Nat) (v : Int) (trailing : List Byte)
    (hsetup : setUp findProgramAddress contractPubKey assets = .ok (feedAccounts, priceFeeds))
    (hp1 : visit1.Perm feedAccounts) (hp2 : visit2.Perm feedAccounts)
    (hmem : (name, feedAccount) ∈ feedAccounts)
    (hempty : client1 name feedAccount = .nilInfo ∨ client1 name feedAccount = .info [])
    (hid : id.length = 32) (hlo : -2 ^ 127 ≤ v) (hhi : v < 2 ^ 127)
    (hvalid : client2 name feedAccount = .info (encodeAccount id t v trailing)) :
    ∃ after1 after2 e1 e2,
      updatePriceFeeds client1 now1 visit1 priceFeeds = some after1 ∧
      after1 name = some e1 ∧ e1.Price = none ∧ marshalPrice e1.Price = "null" ∧
      updatePriceFeeds client2 now2 visit2 after1 = some after2 ∧
      after2 name = some e2 ∧ e2.Price = some v := by
  obtain ⟨hnd, hent⟩ := setUp_fresh _ _ _ _ _ hsetup
  have hnd1 : (visit1.map Prod.fst).Nodup := (hp1.map Prod.fst).nodup_iff.mpr hnd
  have hnd2 : (visit2.map Prod.fst).Nodup := (hp2.map Prod.fst).nodup_iff.mpr hnd
  have hdef1 : ∀ p ∈ visit1, (priceFeeds p.1).isSome := by
    intro p hp
    rw [hent p (hp1.mem_iff.mp hp)]
    rfl
  obtain ⟨after1, hrun1, hin1, _⟩ :=
    updatePriceFeeds_spec client1 now1 visit1 priceFeeds hnd1 hdef1
  have hdef2 : ∀ p ∈ visit2, (after1 p.1).isSome := by
    intro p hp
    have hp' : (p.1, p.2) ∈ visit1 := hp1.mem_iff.mpr (hp2.mem_iff.mp hp)
    rw [hin1 p.1 p.2 hp', hent p (hp2.mem_iff.mp hp)]
    rfl
  obtain ⟨after2, hrun2, hin2, _⟩ :=
    updatePriceFeeds_spec client2 now2 visit2 after1 hnd2 hdef2
  have h1 : after1 name =
      some { Name := name, Price := none, Timestamp := 0, LastUpdate := Time.zero } := by
    rw [hin1 name feedAccount (hp1.mem_iff.mpr hmem), hent (name, feedAccount) hmem]
    simp only [Option.map_some', refreshed, decodedAccount_empty _ hempty]
  have hne : encodeAccount id t v trailing ≠ [] := by
    intro h
    have := congrArg List.length h
    rw [encodeAccount_length, hid] at this
    simp at this
  have hdec : (TemporalNumericValueFeedAccount.zero.UnmarshalWithDecoder
      (NewBorshDecoder (encodeAccount id t v trailing))).err = none := by
    rw [unmarshal_encodeAccount _ id t v trailing hid]
  have h2 : after2 name = some (writeEntry
      (TemporalNumericValueFeedAccount.zero.UnmarshalWithDecoder
        (NewBorshDecoder (encodeAccount id t v trailing))).obj (now2 name)
      { Name := name, Price := none, Timestamp := 0, LastUpdate := Time.zero }) := by
    rw [hin2 name feedAccount (hp2.mem_iff.mpr hmem), h1, hvalid]
    simp only [Option.map_some', refreshed, decodedAccount_ok _ hne hdec]
  refine ⟨after1, after2, _, _, hrun1, h1, rfl, rfl, hrun2, h2, ?_⟩
  rw [unmarshal_encodeAccount _ id t v trailing hid]
  show some (Int128.BigInt _) = some v
  rw [quantized_value v hlo hhi]

/-- Witness for C9: the sample configuration, an empty account on the first tick and
`sampleData` on the second. -/
theorem empty_then_valid_witness :
    ∃ after1 after2 e1 e2,
      updatePriceFeeds emptyClient sampleNow sampleAccounts sampleStart = some after1 ∧
      after1 "SOL/USD" = some e1 ∧ e1.Price = none ∧ marshalPrice e1.Price = "null" ∧
      updatePriceFeeds sampleClient sampleNow sampleAccounts after1 = some after2 ∧
      after2 "SOL/USD" = some e2 ∧ e2.Price = some 250000000000 :=
  empty_then_valid sampleFinder sampleId sampleAssets sampleAccounts sampleStart
    sampleAccounts sampleAccounts emptyClient sampleClient sampleNow sampleNow "SOL/USD"
    (storkFeedSeed ++ [0xab, 0xcd] ++ sampleId) sampleId 1000 250000000000 []
    sample_setUp (List.Perm.refl _) (List.Perm.refl _) (by simp [sampleAccounts])
    (Or.inr rfl) (by simp [sampleId]) (by norm_num) (by norm_num)
    (by simp [sampleClient, sampleData])


/-! ## Rendering -/

theorem sampleEntry_line :
    displayLine utc sampleEntry =
      "SOL/USD   : $2500.00000000 (timestamp: 1970-01-01T00:00:00Z)\n" := by
  decide


theorem roundHalfEven_bounds (a b : Nat) (hb : 0 < b) :
    2 * (roundHalfEven a b * b) ≤ 2 * a + b ∧ 2 * a ≤ 2 * (roundHalfEven a b * b) + b := by
  have hdm : a / b * b + a % b = a := by
    rw [Nat.mul_comm]
    exact Nat.div_add_mod a b
  have hr : a % b < b := Nat.mod_lt a hb
  have hs : (a / b + 1) * b = a / b * b + b := by ring
  unfold roundHalfEven
  split_ifs
  · constructor <;> omega
  · rw [hs]
    constructor <;> omega
  · constructor <;> omega
  · rw [hs]
    constructor <;> omega

theorem roundHalfEven_unique (a b q : Nat) (hb : 0 < b) (h1 : 2 * (q * b) < 2 * a + b)
    (h2 : 2 * a < 2 * (q * b) + b) : roundHalfEven a b = q := by
  obtain ⟨hl, hu⟩ := roundHalfEven_bounds a b hb
  have hle : q ≤ roundHalfEven a b := by
    have : q * b < (roundHalfEven a b + 1) * b := by
      have hs : (roundHalfEven a b + 1) * b = roundHalfEven a b * b + b := by ring
      rw [hs]
      omega
    have := Nat.lt_of_mul_lt_mul_right this
    omega
  have hge : roundHalfEven a b ≤ q := by
    have : roundHalfEven a b * b < (q + 1) * b := by
      have hs : (q + 1) * b = q * b + b := by ring
      rw [hs]
      omega
    have := Nat.lt_of_mul_lt_mul_right this
    omega
  omega

theorem quoE8_shift (n : Nat) (h : n < 2 ^ 37 * 10 ^ 8) : 27 ≤ (quoE8 n).2 := by
  unfold quoE8
  simp only
  split_ifs with htest
  · by_contra hlt
    have hs0 : max (bitLen n) 64 - bitLen n = 0 := by omega
    rw [hs0] at htest
    have hp : 2 ^ 63 ≤ 2 ^ (max (bitLen n) 64 - 1) :=
      Nat.pow_le_pow_right (by norm_num) (by omega)
    generalize 2 ^ (max (bitLen n) 64 - 1) = X at htest hp
    norm_num at htest hp h
    omega
  · omega

/-- Below `2^37 * 10^8` the float quotient carries enough bits: the eight printed decimals
are exactly those of `n / 10^8`. -/
theorem scaledE8_exact (n : Nat) (h : n < 2 ^ 37 * 10 ^ 8) : scaledE8 n = n := by
  have hs := quoE8_shift n h
  have hpow : 2 ^ 27 ≤ 2 ^ (quoE8 n).2 := Nat.pow_le_pow_right (by norm_num) hs
  have hm : (quoE8 n).1 = roundHalfEven (n * 2 ^ (quoE8 n).2) (10 ^ 8) := by
    simp only [quoE8]
  obtain ⟨hl, hu⟩ := roundHalfEven_bounds (n * 2 ^ (quoE8 n).2) (10 ^ 8) (by norm_num)
  rw [← hm] at hl hu
  unfold scaledE8
  apply roundHalfEven_unique _ _ _ (by positivity)
  · generalize 2 ^ (quoE8 n).2 = S at *
    generalize (quoE8 n).1 * 10 ^ 8 = M at *
    generalize n * S = N at *
    norm_num at hpow hl hu ⊢
    omega
  · generalize 2 ^ (quoE8 n).2 = S at *
    generalize (quoE8 n).1 * 10 ^ 8 = M at *
    generalize n * S = N at *
    norm_num at hpow hl hu ⊢
    omega

theorem formatPrice_exact (p : Int) (h : p.natAbs < 2 ^ 37 * 10 ^ 8) :
    formatPrice p = padRight 12 (exactDecimal8 p) := by
  unfold formatPrice exactDecimal8 decimal8
  rw [scaledE8_exact _ h]
  by_cases hp : p < 0 <;> simp [hp]

theorem priced_line_ne_marker (name rest : String) :
    padRight 10 name ++ ": $" ++ rest ≠ padRight 10 name ++ ": No data available\n" := by
  intro h
  have hd := congrArg String.data h
  simp only [String.data_append, List.append_assoc] at hd
  have := List.append_cancel_left hd
  revert this
  simp


theorem displayLine_mem (zone : Int → Int) (nowText : String) (feeds : List PriceFeed)
    (feed : PriceFeed) (h : feed ∈ feeds) :
    displayLine zone feed ∈ displayPrices zone nowText feeds := by
  unfold displayPrices
  simp only [List.mem_append, List.mem_map]
  exact Or.inl (Or.inr ⟨feed, h, rfl⟩)

/-! ## Claims about the console line -/

/-- C8 as stated fails: for the price 13743895347200000002, inside the signed 128-bit range,
the line shows `137438953472.00000001` while the digits of the price over `10^8` are
`137438953472.00000002`. -/
theorem display_price_inexact :
    (-2 ^ 127 : Int) ≤ 13743895347200000002 ∧ (13743895347200000002 : Int) < 2 ^ 127 ∧
    largeEntry.Price = some 13743895347200000002 ∧
    displayLine utc largeEntry =
      "BIG/USD   : $137438953472.00000001 (timestamp: 1970-01-01T00:00:00Z)\n" ∧
    exactDecimal8 13743895347200000002 = "137438953472.00000002" := by
  refine ⟨by norm_num, by norm_num, rfl, ?_, ?_⟩ <;> decide

/-- C8, amended: the line shows the marker `No data available` exactly when `Price` is nil;
otherwise, for every price of magnitude below `2^37 * 10^8`, it shows the raw integer divided
by `10^8` with exactly eight fractional digits. -/
theorem display_price (zone : Int → Int) (nowText : String) (feeds : List PriceFeed)
    (feed : PriceFeed) (hmem : feed ∈ feeds) :
    displayLine zone feed ∈ displayPrices zone nowText feeds ∧
    (displayLine zone feed = padRight 10 feed.Name ++ ": No data available\n" ↔
      feed.Price = none) ∧
    (∀ p : Int, feed.Price = some p → p.natAbs < 2 ^ 37 * 10 ^ 8 →
      displayLine zone feed =
        padRight 10 feed.Name ++ ": $" ++ padRight 12 (exactDecimal8 p) ++ " (timestamp: " ++
          formatRFC3339 zone (toInt64 feed.Timestamp) ++ ")\n") := by
  refine ⟨displayLine_mem zone nowText feeds feed hmem, ?_, ?_⟩
  · cases hp : feed.Price with
    | none => simp [displayLine, hp]
    | some p =>
      simp only [displayLine, hp, reduceCtorEq, iff_false]
      have := priced_line_ne_marker feed.Name
        (formatPrice p ++ " (timestamp: " ++ formatRFC3339 zone (toInt64 feed.Timestamp)
          ++ ")\n")
      simpa only [String.append_assoc] using this
  · intro p hp hlt
    simp only [displayLine, hp, formatPrice_exact p hlt]

/-- Witness for C8: the SOL/USD entry holding 250000000000. -/
theorem display_price_witness :
    displayLine utc sampleEntry ∈ displayPrices utc "2023-11-14T22:13:20Z" [sampleEntry] ∧
    sampleEntry.Price = some 250000000000 ∧
    (250000000000 : Int).natAbs < 2 ^ 37 * 10 ^ 8 ∧
    displayLine utc sampleEntry =
      padRight 10 sampleEntry.Name ++ ": $" ++ padRight 12 (exactDecimal8 250000000000) ++
        " (timestamp: " ++ formatRFC3339 utc (toInt64 sampleEntry.Timestamp) ++ ")\n" :=
  ⟨(display_price utc "2023-11-14T22:13:20Z" [sampleEntry] sampleEntry (by simp)).1,
   rfl, by decide,
   (display_price utc "2023-11-14T22:13:20Z" [sampleEntry] sampleEntry (by simp)).2.2
    250000000000 rfl (by decide)⟩


theorem displayLine_lastUpdate (zone : Int → Int) (feed : PriceFeed) (t : Time) :
    displayLine zone { feed with LastUpdate := t } = displayLine zone feed := rfl

set_option maxRecDepth 100000 in
/-- C10 as stated fails: the first tick does leave `Price = 250000000000` and
`Timestamp = 1000`, but the line printed for the entry pads the name to ten columns and shows
the timestamp as `1970-01-01T00:00:00Z`, so it is not the line of the claim. -/
theorem first_tick_line_differs :
    (updatePriceFeeds sampleClient sampleNow sampleAccounts sampleStart).bind
      (fun table => table "SOL/USD") = some sampleEntry ∧
    displayLine utc sampleEntry =
      "SOL/USD   : $2500.00000000 (timestamp: 1970-01-01T00:00:00Z)\n" ∧
    displayLine utc sampleEntry ≠
      "SOL/USD  : $2500.00000000 (timestamp: <1970-01-01T00:00:00.000001000Z>)\n" ∧
    displayLine utc sampleEntry ≠
      "SOL/USD  : $2500.00000000 (timestamp: <1970-01-01T00:00:00.000001000Z>)" := by
  refine ⟨?_, sampleEntry_line, ?_, ?_⟩
  · decide
  · rw [sampleEntry_line]
    decide
  · rw [sampleEntry_line]
    decide

/-- C10, amended: for the asset SOL/USD whose fetch returns a buffer encoding timestamp 1000
and value 250000000000, the entry after the tick has `Price = 250000000000` and
`Timestamp = 1000`, and with the local zone UTC the console line for it is exactly
`SOL/USD   : $2500.00000000 (timestamp: 1970-01-01T00:00:00Z)`: the name padded to ten
columns, the 8-decimal price, and the source timestamp in RFC 3339 form to the second. -/
theorem first_tick_line (client : Client) (now : String → Time)
    (visit : List (String × PublicKey)) (priceFeeds : PriceFeeds) (feedAccount : PublicKey)
    (id trailing : List Byte) (entry : PriceFeed) (nowText : String)
    (hnd : (visit.map Prod.fst).Nodup)
    (hdef : ∀ p ∈ visit, (priceFeeds p.1).isSome)
    (hmem : ("SOL/USD", feedAccount) ∈ visit)
    (hentry : priceFeeds "SOL/USD" = some entry) (hname : entry.Name = "SOL/USD")
    (hid : id.length = 32)
    (hfetch : client "SOL/USD" feedAccount
      = .info (encodeAccount id 1000 250000000000 trailing)) :
    ∃ after e, updatePriceFeeds client now visit priceFeeds = some after ∧
      after "SOL/USD" = some e ∧ e.Price = some 250000000000 ∧ e.Timestamp = 1000 ∧
      displayLine utc e = "SOL/USD   : $2500.00000000 (timestamp: 1970-01-01T00:00:00Z)\n" ∧
      displayLine utc e ∈ displayPrices utc nowText [e] := by
  obtain ⟨after, hrun, hin, _⟩ := updatePriceFeeds_spec client now visit priceFeeds hnd hdef
  have hne : encodeAccount id 1000 250000000000 trailing ≠ [] := by
    intro h
    have := congrArg List.length h
    rw [encodeAccount_length, hid] at this
    simp at this
  have hun := unmarshal_encodeAccount TemporalNumericValueFeedAccount.zero id 1000
    250000000000 trailing hid
  have hdec : (TemporalNumericValueFeedAccount.zero.UnmarshalWithDecoder
      (NewBorshDecoder (encodeAccount id 1000 250000000000 trailing))).err = none := by
    rw [hun]
  have hq := quantized_value 250000000000 (by norm_num) (by norm_num)
  have he : after "SOL/USD" = some
      { Name := "SOL/USD", Price := some 250000000000, Timestamp := 1000,
        LastUpdate := now "SOL/USD" } := by
    rw [hin "SOL/USD" feedAccount hmem, hentry, hfetch]
    simp only [Option.map_some', refreshed, decodedAccount_ok _ hne hdec, writeEntry, hun, hq,
      hname]
    rfl
  refine ⟨after, _, hrun, he, rfl, rfl, ?_, displayLine_mem utc nowText _ _ (by simp)⟩
  exact (displayLine_lastUpdate utc sampleEntry (now "SOL/USD")).trans sampleEntry_line

/-- Witness for C10: the sample configuration and endpoint. -/
theorem first_tick_line_witness :
    ∃ after e, updatePriceFeeds sampleClient sampleNow sampleAccounts sampleStart
        = some after ∧
      after "SOL/USD" = some e ∧ e.Price = some 250000000000 ∧ e.Timestamp = 1000 ∧
      displayLine utc e = "SOL/USD   : $2500.00000000 (timestamp: 1970-01-01T00:00:00Z)\n" ∧
      displayLine utc e ∈ displayPrices utc "2023-11-14T22:13:20Z" [e] :=
  first_tick_line sampleClient sampleNow sampleAccounts sampleStart
    (storkFeedSeed ++ [0xab, 0xcd] ++ sampleId) sampleId []
    { Name := "SOL/USD", Price := none, Timestamp := 0, LastUpdate := Time.zero }
    "2023-11-14T22:13:20Z"
    (by decide) (by simp [sampleAccounts, sampleStart]) (by simp [sampleAccounts])
    (by simp [sampleStart]) rfl (by simp [sampleId]) (by simp [sampleClient, sampleData])

/-! ## The handlers and the loop together -/

set_option maxRecDepth 100000 in
/-- C5 fails on the code: the loop stores `Price`, a handler then takes the read lock,
encodes the entry and releases the lock, and only then does the loop store `Timestamp` and
`LastUpdate`.  The handler has seen the new price next to the old timestamp and the old
refresh time: neither the entry before the update nor the entry after it. -/
theorem handler_sees_torn_entry :
    (run sampleAccount 1700000000000000000 beforeWrite
      [.store, .rlock, .encode, .runlock, .store, .store]).map (fun w => (w.seen, w.entry))
      = some
        (some { Name := "SOL/USD", Price := some 250000000000, Timestamp := 900,
                LastUpdate := 1600000000000000000 },
         { Name := "SOL/USD", Price := some 250000000000, Timestamp := 1000,
           LastUpdate := 1700000000000000000 }) ∧
    staleEntry = { Name := "SOL/USD", Price := some 240000000000, Timestamp := 900,
                   LastUpdate := 1600000000000000000 } := by
  constructor
  · decide
  · rfl

end Stork
